import Mathlib

/-!
# MVCC edge index and condition locker

A verification development for the MVCC edge index (`arangod/Mvcc/EdgeIndex.h`)
and the scoped condition-variable lock (`lib/Basics/ConditionLocker.cpp`,
`lib/Basics/ConditionVariable.cpp`).

`EdgeIndex.h` only declares the index operations; their bodies
(`EdgeIndex.cpp`, `Basics/AssocMulti.h`) are not part of the sources at hand, so
the index operations are modelled from the specification text and every such
definition says so in its doc comment.  The condition locker and the condition
variable are embedded from their source; the platform primitives
(`TRI_LockCondition` and friends) are declared elsewhere and are modelled as
events appended to a call log.
-/

set_option autoImplicit false

namespace triagens
namespace mvcc

/-! ## Data model of the edge index -/

/-- Vertex identifier, the key of both multimaps. -/
abbrev VertexId := Nat

/-- Identity of a transaction. -/
abbrev TransactionId := Nat

/-- Modelled from the spec: `TRI_doc_mptr_t` is only forward-declared.  An edge
document handle is an externally owned reference (`handle`) plus the two vertex
identifiers read from the document. -/
structure EdgeDocumentRef where
  handle : Nat
  fromVertex : VertexId
  toVertex : VertexId
deriving DecidableEq, Repr

/-- Modelled from the spec: `TransactionCollection` is only forward-declared.
The transaction context supplies the identity of the invoking transaction, its
start sequence number (the visibility horizon) and the commit sequence number it
publishes in `preCommit`. -/
structure TransactionCollection where
  id : TransactionId
  startSeq : Nat
  commitSeq : Nat
deriving DecidableEq, Repr

/-- Modelled from the spec: the visibility tag of an index entry, one of
*pending(txn)*, *committed*, *tombstone-pending(txn)*, *tombstone-committed*.
A committed tag carries the commit sequence number published by the owning
transaction; a tombstone remembers the commit sequence number of the insertion
it hides (`none` while that insertion is still pending in the removing
transaction), and a committed tombstone also the commit sequence number of the
removal. -/
inductive Tag where
  | pending (txn : TransactionId)
  | committed (commitSeq : Nat)
  | tombstonePending (txn : TransactionId) (inserted : Option Nat)
  | tombstoneCommitted (inserted : Nat) (removed : Nat)
deriving DecidableEq, Repr

/-- Modelled from the spec: an index entry is the triple
(key = vertex identifier, value = edge document handle, visibility tag). -/
structure IndexEntry where
  key : VertexId
  doc : EdgeDocumentRef
  tag : Tag
deriving DecidableEq, Repr

/-- Modelled from the spec: the error kinds of the index. -/
inductive IndexError where
  | NotFound
  | DuplicateInsert
  | OutOfMemory
  | InvalidHandle
deriving DecidableEq, Repr

/-- Modelled from the spec: the type enumeration of the `Index` base
(`TRI_idx_type_e`, declared outside the sources at hand).  The source names only
`TRI_IDX_TYPE_EDGE_INDEX`; the other members stand for the other index kinds. -/
inductive TRI_idx_type_e where
  | TRI_IDX_TYPE_UNKNOWN
  | TRI_IDX_TYPE_PRIMARY_INDEX
  | TRI_IDX_TYPE_HASH_INDEX
  | TRI_IDX_TYPE_EDGE_INDEX
  | TRI_IDX_TYPE_SKIPLIST_INDEX
deriving DecidableEq, Repr

/-- A tag is live when it is not a tombstone. -/
def Tag.isLive : Tag → Bool
  | .pending _ => true
  | .committed _ => true
  | .tombstonePending _ _ => false
  | .tombstoneCommitted _ _ => false

/-- Modelled from the spec: the visibility rule.  A pending entry is seen by its
owner only; a committed entry by the transactions that started after its
commit; a pending tombstone hides the entry from the removing transaction only;
a committed tombstone hides it from the transactions that start after the
removal committed. -/
def Tag.visibleTo (txn : TransactionCollection) : Tag → Bool
  | .pending owner => decide (owner = txn.id)
  | .committed c => decide (c < txn.startSeq)
  | .tombstonePending owner (some c) => decide (owner ≠ txn.id) && decide (c < txn.startSeq)
  | .tombstonePending _ none => false
  | .tombstoneCommitted c r => decide (c < txn.startSeq) && !decide (r < txn.startSeq)

/-- An entry is visible to a transaction when its tag is. -/
def IndexEntry.visibleTo (txn : TransactionCollection) (e : IndexEntry) : Bool :=
  e.tag.visibleTo txn

/-! ## The hash multimap (`AssocMulti<void, void, uint32_t>`) -/

/-- Modelled from the spec: vertex identifiers are hashed to a fixed-width
(32 bit) hash value. -/
def hashVertex (k : VertexId) : Nat := k % 2 ^ 32

/-- Modelled from the spec: `Basics/AssocMulti.h` is not part of the sources.
A hash multimap is a bucket array with separate chaining; several entries may
share a key. -/
structure HashMultimap where
  buckets : List (List IndexEntry)
deriving DecidableEq, Repr

/-- Applies `f` to the bucket at position `i`. -/
def modifyBucket (f : List IndexEntry → List IndexEntry) :
    Nat → List (List IndexEntry) → List (List IndexEntry)
  | _, [] => []
  | 0, b :: bs => f b :: bs
  | i + 1, b :: bs => b :: modifyBucket f i bs

/-- The chain stored at position `i` of a bucket array (empty beyond its end). -/
def bucketAt : Nat → List (List IndexEntry) → List IndexEntry
  | _, [] => []
  | 0, b :: _ => b
  | i + 1, _ :: bs => bucketAt i bs

namespace HashMultimap

/-- An empty multimap with `n` buckets. -/
def empty (n : Nat) : HashMultimap := ⟨List.replicate n []⟩

/-- Every stored entry, bucket by bucket. -/
def entries (m : HashMultimap) : List IndexEntry := m.buckets.flatten

/-- Number of stored entries. -/
def size (m : HashMultimap) : Nat := m.entries.length

/-- Number of allocated buckets. -/
def nrAlloc (m : HashMultimap) : Nat := m.buckets.length

/-- The bucket a key hashes to. -/
def slot (m : HashMultimap) (k : VertexId) : Nat := hashVertex k % m.buckets.length

/-- Adds an entry at the head of the chain of its bucket; a multimap without
bucket array allocates one bucket first. -/
def insert (m : HashMultimap) (e : IndexEntry) : HashMultimap :=
  match m.buckets with
  | [] => ⟨[[e]]⟩
  | b :: bs => ⟨modifyBucket (fun chain => e :: chain) (m.slot e.key) (b :: bs)⟩

/-- All entries stored under a key: the chain of the key's bucket, restricted to
the entries with that key. -/
def lookup (m : HashMultimap) (k : VertexId) : List IndexEntry :=
  (bucketAt (m.slot k) m.buckets).filter (fun e => decide (e.key = k))

/-- Rewrites every stored entry in place. -/
def mapEntries (f : IndexEntry → IndexEntry) (m : HashMultimap) : HashMultimap :=
  ⟨m.buckets.map (List.map f)⟩

/-- Physically erases the entries satisfying `p` from every chain. -/
def eraseEntries (p : IndexEntry → Bool) (m : HashMultimap) : HashMultimap :=
  ⟨m.buckets.map (List.filter (fun e => !p e))⟩

/-- Re-inserts every entry into a fresh bucket array of `n` buckets. -/
def resize (n : Nat) (m : HashMultimap) : HashMultimap :=
  m.entries.foldl (fun acc e => acc.insert e) (empty n)

/-- Modelled from the spec: a size hint may trigger a resize; here it does when
the hint exceeds the number of allocated buckets. -/
def sizeHint (n : Nat) (m : HashMultimap) : HashMultimap :=
  if m.nrAlloc < n then m.resize n else m

end HashMultimap

/-! ## The edge index -/

/-- The edge index (`class EdgeIndex`): the index identifier of the `Index`
base and the two multimaps `_from` and `_to`. -/
structure EdgeIndex where
  id : Nat
  _from : HashMultimap
  _to : HashMultimap
deriving DecidableEq, Repr

/-- Modelled from the spec: the entries `remove(txn, doc)` acts on, the live
entries of `doc` visible to `txn` (committed, or pending and owned by `txn`). -/
def removable (txn : TransactionCollection) (doc : EdgeDocumentRef) (e : IndexEntry) : Bool :=
  decide (e.doc = doc) && e.tag.isLive && e.tag.visibleTo txn

/-- The tombstone `txn` puts on a live tag. -/
def Tag.tombstoneBy (txn : TransactionCollection) : Tag → Tag
  | .pending _ => .tombstonePending txn.id none
  | .committed c => .tombstonePending txn.id (some c)
  | t => t

/-- Marks an entry tombstone-pending(txn) when `remove(txn, doc)` acts on it. -/
def markRemoved (txn : TransactionCollection) (doc : EdgeDocumentRef) (e : IndexEntry) :
    IndexEntry :=
  if removable txn doc e then { e with tag := e.tag.tombstoneBy txn } else e

/-- Modelled from the spec: the tag transition of `preCommit(txn)`. -/
def Tag.commit (txn : TransactionCollection) : Tag → Tag
  | .pending owner => if owner = txn.id then .committed txn.commitSeq else .pending owner
  | .tombstonePending owner ins =>
      if owner = txn.id then .tombstoneCommitted (ins.getD txn.commitSeq) txn.commitSeq
      else .tombstonePending owner ins
  | t => t

/-- The entry transition of `preCommit(txn)`: only the tag changes. -/
def commitEntry (txn : TransactionCollection) (e : IndexEntry) : IndexEntry :=
  { e with tag := e.tag.commit txn }

/-- Modelled from the spec: the entries `forget(txn, doc)` erases, the entries
of `doc` that carry a committed tombstone or are pending and owned by `txn`
(the rollback path). -/
def forgettable (txn : TransactionCollection) (doc : EdgeDocumentRef) (e : IndexEntry) : Bool :=
  decide (e.doc = doc) &&
    (match e.tag with
     | .tombstoneCommitted _ _ => true
     | .pending owner => decide (owner = txn.id)
     | _ => false)

/-- Whether the entry belongs to the document. -/
def entryOf (doc : EdgeDocumentRef) (e : IndexEntry) : Bool := decide (e.doc = doc)

namespace EdgeIndex

/-- Modelled from the spec: `EdgeIndex::EdgeIndex(id, collection)`, an index
without entries. -/
def create (id : Nat) : EdgeIndex := ⟨id, HashMultimap.empty 1, HashMultimap.empty 1⟩

/-- Modelled from the spec: `EdgeIndex::insert(txn, doc)` (body not in the
sources) adds a pending(txn) entry under `fromVertex` to `_from` and under
`toVertex` to `_to`. -/
def insert (idx : EdgeIndex) (txn : TransactionCollection) (doc : EdgeDocumentRef) : EdgeIndex :=
  { idx with
    _from := idx._from.insert ⟨doc.fromVertex, doc, .pending txn.id⟩
    _to := idx._to.insert ⟨doc.toVertex, doc, .pending txn.id⟩ }

/-- Modelled from the spec: `EdgeIndex::remove(txn, doc)` (body not in the
sources) marks the live entries of `doc` visible to `txn` tombstone-pending(txn)
in both maps and erases nothing; it fails with `NotFound` when there is no such
entry. -/
def remove (idx : EdgeIndex) (txn : TransactionCollection) (doc : EdgeDocumentRef) :
    Except IndexError EdgeIndex :=
  if idx._from.entries.any (removable txn doc) || idx._to.entries.any (removable txn doc) then
    .ok { idx with
          _from := idx._from.mapEntries (markRemoved txn doc)
          _to := idx._to.mapEntries (markRemoved txn doc) }
  else .error .NotFound

/-- Modelled from the spec: `EdgeIndex::forget(txn, doc)` (body not in the
sources) physically erases the forgettable entries of `doc` from both maps.
A document with entries none of which may be erased is reported as `NotFound`;
a document without any entry is a no-op. -/
def forget (idx : EdgeIndex) (txn : TransactionCollection) (doc : EdgeDocumentRef) :
    Except IndexError EdgeIndex :=
  if (idx._from.entries.any (entryOf doc) || idx._to.entries.any (entryOf doc)) &&
      !(idx._from.entries.any (forgettable txn doc) || idx._to.entries.any (forgettable txn doc))
  then .error .NotFound
  else .ok { idx with
             _from := idx._from.eraseEntries (forgettable txn doc)
             _to := idx._to.eraseEntries (forgettable txn doc) }

/-- Modelled from the spec: `EdgeIndex::preCommit(txn)` (body not in the
sources) turns pending(txn) into committed and tombstone-pending(txn) into
tombstone-committed, in both maps. -/
def preCommit (idx : EdgeIndex) (txn : TransactionCollection) : EdgeIndex :=
  { idx with
    _from := idx._from.mapEntries (commitEntry txn)
    _to := idx._to.mapEntries (commitEntry txn) }

/-- Modelled from the spec: `EdgeIndex::sizeHint(n)` (body not in the sources)
passes the hint to both maps. -/
def sizeHint (idx : EdgeIndex) (n : Nat) : EdgeIndex :=
  { idx with _from := idx._from.sizeHint n, _to := idx._to.sizeHint n }

/-- Modelled from the spec: `EdgeIndex::memory()` (body not in the sources), the
byte accounting of both maps: `bucketBytes` per allocated bucket and
`slotBytes` per stored entry. -/
def memory (bucketBytes slotBytes : Nat) (idx : EdgeIndex) : Nat :=
  bucketBytes * (idx._from.nrAlloc + idx._to.nrAlloc) +
    slotBytes * (idx._from.size + idx._to.size)

/-- The edges leaving vertex `v`, as seen by `txn`. -/
def lookupFrom (idx : EdgeIndex) (txn : TransactionCollection) (v : VertexId) :
    List EdgeDocumentRef :=
  ((idx._from.lookup v).filter (IndexEntry.visibleTo txn)).map IndexEntry.doc

/-- The edges entering vertex `v`, as seen by `txn`. -/
def lookupTo (idx : EdgeIndex) (txn : TransactionCollection) (v : VertexId) :
    List EdgeDocumentRef :=
  ((idx._to.lookup v).filter (IndexEntry.visibleTo txn)).map IndexEntry.doc

/-- `EdgeIndex::type () const`: returns the edge index constant; the method is
`const`, so the index is handed back as it is. -/
def type (idx : EdgeIndex) : TRI_idx_type_e × EdgeIndex :=
  (.TRI_IDX_TYPE_EDGE_INDEX, idx)

/-- `EdgeIndex::typeName () const`: returns the string `edge`; the method is
`const`, so the index is handed back as it is. -/
def typeName (idx : EdgeIndex) : String × EdgeIndex :=
  ("edge", idx)

end EdgeIndex

/-- The index `remove` produces when it succeeds. -/
def EdgeIndex.removed (idx : EdgeIndex) (txn : TransactionCollection) (doc : EdgeDocumentRef) :
    EdgeIndex :=
  { idx with
    _from := idx._from.mapEntries (markRemoved txn doc)
    _to := idx._to.mapEntries (markRemoved txn doc) }

/-- The index `forget` produces when it succeeds. -/
def EdgeIndex.forgotten (idx : EdgeIndex) (txn : TransactionCollection)
    (doc : EdgeDocumentRef) : EdgeIndex :=
  { idx with
    _from := idx._from.eraseEntries (forgettable txn doc)
    _to := idx._to.eraseEntries (forgettable txn doc) }

/-- One later call on the index: any of the five mutating operations. -/
inductive IndexOp where
  | insert (txn : TransactionCollection) (doc : EdgeDocumentRef)
  | remove (txn : TransactionCollection) (doc : EdgeDocumentRef)
  | forget (txn : TransactionCollection) (doc : EdgeDocumentRef)
  | preCommit (txn : TransactionCollection)
  | sizeHint (n : Nat)
deriving DecidableEq, Repr

/-- The index after one call; a failing `remove` or `forget` leaves it as it
was. -/
def IndexOp.run (idx : EdgeIndex) : IndexOp → EdgeIndex
  | .insert txn doc => idx.insert txn doc
  | .remove txn doc =>
      match idx.remove txn doc with
      | .ok idx1 => idx1
      | .error _ => idx
  | .forget txn doc =>
      match idx.forget txn doc with
      | .ok idx1 => idx1
      | .error _ => idx
  | .preCommit txn => idx.preCommit txn
  | .sizeHint n => idx.sizeHint n

/-- The index after a sequence of calls, first call first. -/
def runIndexOps (idx : EdgeIndex) (ops : List IndexOp) : EdgeIndex :=
  ops.foldl IndexOp.run idx

/-- The document has no entry in either map of the index. -/
def EdgeIndex.Absent (idx : EdgeIndex) (doc : EdgeDocumentRef) : Prop :=
  ∀ e ∈ idx._from.entries ++ idx._to.entries, e.doc ≠ doc

/-! ## State predicates of the edge index -/

/-- Every entry sits in the chain of the bucket its key hashes to. -/
def HashMultimap.WellHashed (m : HashMultimap) : Prop :=
  ∀ i, ∀ e ∈ bucketAt i m.buckets, m.slot e.key = i

/-- Bidirectional consistency of the index state: both maps are well hashed,
entries of `_from` are keyed by the `fromVertex` and entries of `_to` by the
`toVertex` of their document, and every non-tombstoned entry of one map has a
matching entry (same document, same tag) in the other. -/
structure EdgeIndex.Consistent (idx : EdgeIndex) : Prop where
  fromHashed : idx._from.WellHashed
  toHashed : idx._to.WellHashed
  fromKey : ∀ e ∈ idx._from.entries, e.key = e.doc.fromVertex
  toKey : ∀ e ∈ idx._to.entries, e.key = e.doc.toVertex
  fromTo : ∀ e ∈ idx._from.entries, e.tag.isLive = true →
    (⟨e.doc.toVertex, e.doc, e.tag⟩ : IndexEntry) ∈ idx._to.entries
  toFrom : ∀ e ∈ idx._to.entries, e.tag.isLive = true →
    (⟨e.doc.fromVertex, e.doc, e.tag⟩ : IndexEntry) ∈ idx._from.entries

/-- The document is committed in the index as far as `txn` is concerned: it has
an entry, and each of its entries in either map is tagged committed with a
commit sequence number before the start of `txn`. -/
def EdgeIndex.CommittedFor (idx : EdgeIndex) (txn : TransactionCollection)
    (doc : EdgeDocumentRef) : Prop :=
  (∃ e ∈ idx._from.entries ++ idx._to.entries, e.doc = doc) ∧
  ∀ e ∈ idx._from.entries ++ idx._to.entries, e.doc = doc →
    ∃ c, e.tag = .committed c ∧ c < txn.startSeq

/-! ## The concrete scenario of the specification -/

namespace Scenario

/-- Edge `E1` from vertex 1 to vertex 2. -/
def E1 : EdgeDocumentRef := ⟨1, 1, 2⟩

/-- Edge `E2` from vertex 2 to vertex 3. -/
def E2 : EdgeDocumentRef := ⟨2, 2, 3⟩

/-- Transaction `T1`: sequence number 10, commit sequence number 11. -/
def T1 : TransactionCollection := ⟨10, 10, 11⟩

/-- Transaction `T2`: sequence number 30, commit sequence number 31. -/
def T2 : TransactionCollection := ⟨30, 30, 31⟩

/-- A reader with sequence number `s`. -/
def reader (s : Nat) : TransactionCollection := ⟨s, s, s + 1⟩

/-- The index after `insert(T1, E1)`. -/
def afterInsert : EdgeIndex := (EdgeIndex.create 0).insert T1 E1

/-- The index after `insert(T1, E1)` and `preCommit(T1)`. -/
def afterCommit : EdgeIndex := afterInsert.preCommit T1

/-- The index after `remove(T2, E1)` on top of that. -/
def afterRemove : EdgeIndex :=
  match afterCommit.remove T2 E1 with
  | .ok idx => idx
  | .error _ => afterCommit

/-- The index after `preCommit(T2)` on top of that. -/
def afterRemoveCommit : EdgeIndex := afterRemove.preCommit T2

end Scenario

end mvcc
end triagens

namespace triagens
namespace basics

/-! ## Condition variable and condition locker -/

/-- Modelled from the spec: the platform primitives on a `TRI_condition_t`
(declared in `BasicsC/locks.h`, not part of the sources).  Each value records
one call of a primitive on the condition at address `cond`. -/
inductive PrimitiveCall where
  | TRI_InitCondition (cond : Nat)
  | TRI_DestroyCondition (cond : Nat)
  | TRI_LockCondition (cond : Nat)
  | TRI_UnlockCondition (cond : Nat)
  | TRI_WaitCondition (cond : Nat)
  | TRI_TimedWaitCondition (cond : Nat) (delay : Nat)
  | TRI_BroadcastCondition (cond : Nat)
  | TRI_SignalCondition (cond : Nat)
deriving DecidableEq, Repr

/-- Modelled from the spec: the state of the platform layer as far as the
condition primitives are concerned, the log of the primitive calls issued so far
(oldest first) and the answers the timed wait is going to give (`true`: woken by
a signal, `false`: timeout expired). -/
structure Platform where
  calls : List PrimitiveCall
  timedWaitAnswers : List Bool
deriving DecidableEq, Repr

/-- Records one primitive call. -/
def Platform.issue (p : Platform) (c : PrimitiveCall) : Platform :=
  { p with calls := p.calls ++ [c] }

/-- Modelled from the spec: `TRI_LockCondition` locks the mutex of the condition. -/
def TRI_LockCondition (cond : Nat) (p : Platform) : Platform :=
  p.issue (.TRI_LockCondition cond)

/-- Modelled from the spec: `TRI_UnlockCondition` unlocks the mutex of the
condition. -/
def TRI_UnlockCondition (cond : Nat) (p : Platform) : Platform :=
  p.issue (.TRI_UnlockCondition cond)

/-- Modelled from the spec: `TRI_WaitCondition` blocks until signalled. -/
def TRI_WaitCondition (cond : Nat) (p : Platform) : Platform :=
  p.issue (.TRI_WaitCondition cond)

/-- Modelled from the spec: `TRI_TimedWaitCondition` blocks until signalled or
until `delay` microseconds have passed, and tells which of the two happened. -/
def TRI_TimedWaitCondition (cond : Nat) (delay : Nat) (p : Platform) : Bool × Platform :=
  (p.timedWaitAnswers.headD false,
   { calls := p.calls ++ [.TRI_TimedWaitCondition cond delay],
     timedWaitAnswers := p.timedWaitAnswers.tail })

/-- Modelled from the spec: `TRI_BroadcastCondition` wakes all waiters. -/
def TRI_BroadcastCondition (cond : Nat) (p : Platform) : Platform :=
  p.issue (.TRI_BroadcastCondition cond)

/-- Modelled from the spec: `TRI_SignalCondition` wakes at most one waiter. -/
def TRI_SignalCondition (cond : Nat) (p : Platform) : Platform :=
  p.issue (.TRI_SignalCondition cond)

/-- The condition variable object: `_condition` is the address of its
`TRI_condition_t`. -/
structure ConditionVariable where
  _condition : Nat
deriving DecidableEq, Repr

namespace ConditionVariable

/-- `ConditionVariable::lock`. -/
def lock (cv : ConditionVariable) (p : Platform) : Platform :=
  TRI_LockCondition cv._condition p

/-- `ConditionVariable::unlock`. -/
def unlock (cv : ConditionVariable) (p : Platform) : Platform :=
  TRI_UnlockCondition cv._condition p

/-- `ConditionVariable::wait ()`. -/
def wait (cv : ConditionVariable) (p : Platform) : Platform :=
  TRI_WaitCondition cv._condition p

/-- `ConditionVariable::wait (uint64_t delay)`. -/
def waitDelay (cv : ConditionVariable) (delay : Nat) (p : Platform) : Bool × Platform :=
  TRI_TimedWaitCondition cv._condition delay p

/-- `ConditionVariable::broadcast`. -/
def broadcast (cv : ConditionVariable) (p : Platform) : Platform :=
  TRI_BroadcastCondition cv._condition p

/-- `ConditionVariable::signal`. -/
def signal (cv : ConditionVariable) (p : Platform) : Platform :=
  TRI_SignalCondition cv._condition p

end ConditionVariable

/-- The condition locker object: the condition variable it was given (a pointer
in the source) and the file and line of the construction site. -/
structure ConditionLocker where
  _conditionVariable : ConditionVariable
  _file : Option String
  _line : Int
deriving DecidableEq, Repr

namespace ConditionLocker

/-- `ConditionLocker::ConditionLocker (ConditionVariable*)`. -/
def construct (conditionVariable : ConditionVariable) (p : Platform) :
    ConditionLocker × Platform :=
  (⟨conditionVariable, none, 0⟩, conditionVariable.lock p)

/-- `ConditionLocker::ConditionLocker (ConditionVariable*, char const*, int)`. -/
def constructAt (conditionVariable : ConditionVariable) (file : String) (line : Int)
    (p : Platform) : ConditionLocker × Platform :=
  (⟨conditionVariable, some file, line⟩, conditionVariable.lock p)

/-- `ConditionLocker::~ConditionLocker`. -/
def destruct (l : ConditionLocker) (p : Platform) : Platform :=
  l._conditionVariable.unlock p

/-- `ConditionLocker::wait ()`. -/
def wait (l : ConditionLocker) (p : Platform) : Platform :=
  l._conditionVariable.wait p

/-- `ConditionLocker::wait (uint64_t delay)`. -/
def waitDelay (l : ConditionLocker) (delay : Nat) (p : Platform) : Bool × Platform :=
  l._conditionVariable.waitDelay delay p

/-- `ConditionLocker::broadcast`. -/
def broadcast (l : ConditionLocker) (p : Platform) : Platform :=
  l._conditionVariable.broadcast p

/-- `ConditionLocker::signal`. -/
def signal (l : ConditionLocker) (p : Platform) : Platform :=
  l._conditionVariable.signal p

/-- `ConditionLocker::unlock`. -/
def unlock (l : ConditionLocker) (p : Platform) : Platform :=
  l._conditionVariable.unlock p

/-- `ConditionLocker::lock`. -/
def lock (l : ConditionLocker) (p : Platform) : Platform :=
  l._conditionVariable.lock p

end ConditionLocker

/-- Number of lock calls issued on the condition at `cond`. -/
def lockCalls (cond : Nat) (p : Platform) : Nat :=
  p.calls.count (.TRI_LockCondition cond)

/-- Number of unlock calls issued on the condition at `cond`. -/
def unlockCalls (cond : Nat) (p : Platform) : Nat :=
  p.calls.count (.TRI_UnlockCondition cond)

/-- Number of outstanding locks on the condition: lock calls not yet matched by
an unlock call. -/
def outstanding (cond : Nat) (p : Platform) : Int :=
  (lockCalls cond p : Int) - (unlockCalls cond p : Int)

/-- The condition is held when at least one lock is outstanding. -/
def isHeld (cond : Nat) (p : Platform) : Prop := 0 < outstanding cond p

instance (cond : Nat) (p : Platform) : Decidable (isHeld cond p) := by
  unfold isHeld; infer_instance

/-- The calls a locker user may make between construction and destruction
without touching the lock itself. -/
inductive WaitOp where
  | wait
  | waitDelay (delay : Nat)
  | broadcast
  | signal
deriving DecidableEq, Repr

/-- Runs one such call on a locker. -/
def WaitOp.run (l : ConditionLocker) : WaitOp → Platform → Platform
  | .wait, p => l.wait p
  | .waitDelay d, p => (l.waitDelay d p).2
  | .broadcast, p => l.broadcast p
  | .signal, p => l.signal p

/-- Runs a sequence of such calls on a locker. -/
def runWaitOps (l : ConditionLocker) (ops : List WaitOp) (p : Platform) : Platform :=
  ops.foldl (fun q op => op.run l q) p

/-- Runs `n` rounds of `unlock()` followed by `lock()` on a locker. -/
def unlockLockRounds (l : ConditionLocker) : Nat → Platform → Platform
  | 0, p => p
  | n + 1, p => unlockLockRounds l n (l.lock (l.unlock p))

/-- The calls issued between platform state `p` and the later state `q`. -/
def newCalls (p q : Platform) : List PrimitiveCall := q.calls.drop p.calls.length

/-- Every call a user can make on a locker between construction and
destruction. -/
inductive LockerOp where
  | wait
  | waitDelay (delay : Nat)
  | broadcast
  | signal
  | unlock
  | lock
deriving DecidableEq, Repr

/-- Runs one call on a locker: the result of the call (only the timed wait has
one) and the platform state after it. -/
def LockerOp.run (l : ConditionLocker) : LockerOp → Platform → Option Bool × Platform
  | .wait, p => (none, l.wait p)
  | .waitDelay d, p => (some (l.waitDelay d p).1, (l.waitDelay d p).2)
  | .broadcast, p => (none, l.broadcast p)
  | .signal, p => (none, l.signal p)
  | .unlock, p => (none, l.unlock p)
  | .lock, p => (none, l.lock p)

/-- Runs a sequence of calls on a locker: the results in order and the final
platform state. -/
def runLockerOps (l : ConditionLocker) : List LockerOp → Platform → List (Option Bool) × Platform
  | [], p => ([], p)
  | op :: ops, p =>
      ((op.run l p).1 :: (runLockerOps l ops (op.run l p).2).1,
       (runLockerOps l ops (op.run l p).2).2)

/-- The same-named `ConditionVariable` operation of a locker call, run on a
condition variable. -/
def LockerOp.onVariable (cv : ConditionVariable) : LockerOp → Platform → Option Bool × Platform
  | .wait, p => (none, cv.wait p)
  | .waitDelay d, p => (some (cv.waitDelay d p).1, (cv.waitDelay d p).2)
  | .broadcast, p => (none, cv.broadcast p)
  | .signal, p => (none, cv.signal p)
  | .unlock, p => (none, cv.unlock p)
  | .lock, p => (none, cv.lock p)

/-- The primitive a locker call is expected to reach on the condition at
`cond`. -/
def LockerOp.primitive (cond : Nat) : LockerOp → PrimitiveCall
  | .wait => .TRI_WaitCondition cond
  | .waitDelay d => .TRI_TimedWaitCondition cond d
  | .broadcast => .TRI_BroadcastCondition cond
  | .signal => .TRI_SignalCondition cond
  | .unlock => .TRI_UnlockCondition cond
  | .lock => .TRI_LockCondition cond

/-! ### The wait set of a condition -/

/-- Modelled from the spec: the wake-one primitive removes at most one waiter
from the set of waiting threads, the one at the position `pick` chooses (a
position beyond the end of the set wakes nobody). -/
def wakeOne (pick : List Nat → Nat) (waiting : List Nat) : List Nat :=
  waiting.eraseIdx (pick waiting)

/-- Modelled from the spec: the wake-all primitive removes every waiter. -/
def wakeAll (_waiting : List Nat) : List Nat := []

/-- Effect of one primitive call on the set of threads waiting on the condition
at `cond`: a signal on it is the wake-one primitive, a broadcast on it the
wake-all primitive, every other call leaves the set alone. -/
def PrimitiveCall.wake (pick : List Nat → Nat) (cond : Nat) :
    PrimitiveCall → List Nat → List Nat
  | .TRI_SignalCondition c, waiting => if c = cond then wakeOne pick waiting else waiting
  | .TRI_BroadcastCondition c, waiting => if c = cond then wakeAll waiting else waiting
  | _, waiting => waiting

/-- The set of threads waiting on the condition at `cond` after a list of calls,
starting from the set `waiting`. -/
def waitSetAfter (pick : List Nat → Nat) (cond : Nat) (calls : List PrimitiveCall)
    (waiting : List Nat) : List Nat :=
  calls.foldl (fun ws c => c.wake pick cond ws) waiting

end basics
end triagens

/-! # Properties -/

namespace triagens
namespace mvcc

/-! ## Bucket arrays -/

theorem modifyBucket_length (f : List IndexEntry → List IndexEntry) (i : Nat)
    (bs : List (List IndexEntry)) : (modifyBucket f i bs).length = bs.length := by
  induction bs generalizing i with
  | nil => cases i <;> rfl
  | cons b bs ih =>
    cases i with
    | zero => rfl
    | succ i => simp [modifyBucket, ih]

theorem bucketAt_modifyBucket (f : List IndexEntry → List IndexEntry) (i j : Nat)
    (bs : List (List IndexEntry)) (hi : i < bs.length) :
    bucketAt j (modifyBucket f i bs) = if j = i then f (bucketAt i bs) else bucketAt j bs := by
  induction bs generalizing i j with
  | nil => simp at hi
  | cons b bs ih =>
    cases i with
    | zero =>
      cases j with
      | zero => simp [modifyBucket, bucketAt]
      | succ j => simp [modifyBucket, bucketAt]
    | succ i =>
      cases j with
      | zero => simp [modifyBucket, bucketAt]
      | succ j =>
        have hi2 : i < bs.length := by simpa using hi
        simp [modifyBucket, bucketAt, ih i j hi2]

theorem flatten_modifyBucket_cons (e : IndexEntry) (i : Nat) (bs : List (List IndexEntry))
    (hi : i < bs.length) :
    List.Perm (modifyBucket (fun chain => e :: chain) i bs).flatten (e :: bs.flatten) := by
  induction bs generalizing i with
  | nil => simp at hi
  | cons b bs ih =>
    cases i with
    | zero => simp [modifyBucket]
    | succ i =>
      have hi2 : i < bs.length := by simpa using hi
      have h := ih i hi2
      simp only [modifyBucket, List.flatten_cons]
      exact (List.Perm.append_left b h).trans List.perm_middle

theorem bucketAt_map (g : List IndexEntry → List IndexEntry) (hg : g [] = [])
    (i : Nat) (bs : List (List IndexEntry)) :
    bucketAt i (bs.map g) = g (bucketAt i bs) := by
  induction bs generalizing i with
  | nil => cases i <;> simp [bucketAt, hg]
  | cons b bs ih =>
    cases i with
    | zero => simp [bucketAt]
    | succ i => simp [bucketAt, ih]

theorem mem_flatten_iff_bucketAt (e : IndexEntry) (bs : List (List IndexEntry)) :
    e ∈ bs.flatten ↔ ∃ i, e ∈ bucketAt i bs := by
  induction bs with
  | nil =>
    constructor
    · intro h; simp at h
    · rintro ⟨i, h⟩; cases i <;> simp [bucketAt] at h
  | cons b bs ih =>
    simp only [List.flatten_cons, List.mem_append, ih]
    constructor
    · rintro (h | ⟨i, h⟩)
      · exact ⟨0, h⟩
      · exact ⟨i + 1, h⟩
    · rintro ⟨i, h⟩
      cases i with
      | zero => exact Or.inl h
      | succ i => exact Or.inr ⟨i, h⟩

theorem bucketAt_replicate_nil (i n : Nat) : bucketAt i (List.replicate n []) = [] := by
  induction n generalizing i with
  | zero => cases i <;> rfl
  | succ n ih =>
    cases i with
    | zero => rfl
    | succ i => simpa [List.replicate_succ, bucketAt] using ih i

/-! ## The hash multimap -/

namespace HashMultimap

theorem slot_lt (m : HashMultimap) (k : VertexId) (h : m.buckets ≠ []) :
    m.slot k < m.buckets.length :=
  Nat.mod_lt _ (List.length_pos.mpr h)

theorem insert_buckets_length (m : HashMultimap) (e : IndexEntry) :
    (m.insert e).buckets.length = if m.buckets = [] then 1 else m.buckets.length := by
  obtain ⟨bs⟩ := m
  cases bs with
  | nil => rfl
  | cons b bs => simp [insert, modifyBucket_length]

theorem insert_slot (m : HashMultimap) (e : IndexEntry) (k : VertexId)
    (h : m.buckets ≠ []) : (m.insert e).slot k = m.slot k := by
  simp [slot, insert_buckets_length, h]

theorem insert_entries_perm (m : HashMultimap) (e : IndexEntry) :
    List.Perm (m.insert e).entries (e :: m.entries) := by
  obtain ⟨bs⟩ := m
  cases bs with
  | nil => simp [insert, entries]
  | cons b bs =>
    have hlt := slot_lt ⟨b :: bs⟩ e.key (by simp)
    simpa [insert, entries] using flatten_modifyBucket_cons e _ (b :: bs) hlt

theorem mem_insert_entries (m : HashMultimap) (e x : IndexEntry) :
    x ∈ (m.insert e).entries ↔ x = e ∨ x ∈ m.entries := by
  rw [(insert_entries_perm m e).mem_iff, List.mem_cons]

theorem insert_size (m : HashMultimap) (e : IndexEntry) : (m.insert e).size = m.size + 1 := by
  simp [size, (insert_entries_perm m e).length_eq]

theorem bucketAt_insert (m : HashMultimap) (e : IndexEntry) (j : Nat) :
    bucketAt j (m.insert e).buckets =
      if j = (m.insert e).slot e.key then e :: bucketAt j m.buckets else bucketAt j m.buckets := by
  obtain ⟨bs⟩ := m
  cases bs with
  | nil =>
    cases j with
    | zero => simp [insert, slot, bucketAt, Nat.mod_one]
    | succ j => simp [insert, slot, bucketAt, Nat.mod_one]
  | cons b bs =>
    have hne : (⟨b :: bs⟩ : HashMultimap).buckets ≠ [] := by simp
    have hlt := slot_lt ⟨b :: bs⟩ e.key hne
    rw [insert_slot _ _ _ hne]
    have := bucketAt_modifyBucket (fun chain => e :: chain) _ j (b :: bs) hlt
    simp only [insert]
    rw [this]
    by_cases hj : j = slot ⟨b :: bs⟩ e.key
    · simp [hj]
    · simp [hj]

theorem lookup_insert (m : HashMultimap) (e : IndexEntry) (k : VertexId) :
    (m.insert e).lookup k = if e.key = k then e :: m.lookup k else m.lookup k := by
  by_cases hm : m.buckets = []
  · obtain ⟨bs⟩ := m
    simp only at hm
    subst hm
    by_cases hk : e.key = k
    · simp [lookup, insert, slot, bucketAt, Nat.mod_one, hk]
    · simp [lookup, insert, slot, bucketAt, Nat.mod_one, hk]
  · unfold lookup
    rw [bucketAt_insert, insert_slot _ _ _ hm, insert_slot _ _ _ hm]
    by_cases hk : e.key = k
    · simp [hk]
    · by_cases hs : m.slot k = m.slot e.key
      · simp [hs, hk]
      · simp [hs, hk]

theorem insert_wellHashed (m : HashMultimap) (e : IndexEntry) (h : m.WellHashed) :
    (m.insert e).WellHashed := by
  intro i x hx
  rw [bucketAt_insert] at hx
  by_cases hm : m.buckets = []
  · obtain ⟨bs⟩ := m
    simp only at hm
    subst hm
    by_cases hi : i = (insert ⟨[]⟩ e).slot e.key
    · simp only [hi, if_true, bucketAt, List.mem_singleton] at hx
      rw [hx, hi]
    · simp [hi, bucketAt] at hx
  · by_cases hi : i = (m.insert e).slot e.key
    · rw [if_pos hi] at hx
      rcases List.mem_cons.mp hx with hx | hx
      · rw [hx, hi]
      · rw [insert_slot _ _ _ hm]; exact h i x hx
    · rw [if_neg hi] at hx
      rw [insert_slot _ _ _ hm]; exact h i x hx

theorem empty_wellHashed (n : Nat) : (empty n).WellHashed := by
  intro i x hx
  simp [empty, bucketAt_replicate_nil] at hx

theorem empty_entries (n : Nat) : (empty n).entries = [] := by
  simp [empty, entries]

theorem mem_entries_iff (m : HashMultimap) (e : IndexEntry) :
    e ∈ m.entries ↔ ∃ i, e ∈ bucketAt i m.buckets :=
  mem_flatten_iff_bucketAt e m.buckets

theorem mem_lookup_iff (m : HashMultimap) (e : IndexEntry) (k : VertexId) :
    e ∈ m.lookup k ↔ e ∈ bucketAt (m.slot k) m.buckets ∧ e.key = k := by
  simp [lookup]

theorem mem_entries_of_mem_lookup (m : HashMultimap) (e : IndexEntry) (k : VertexId)
    (h : e ∈ m.lookup k) : e ∈ m.entries :=
  (mem_entries_iff m e).mpr ⟨_, ((mem_lookup_iff m e k).mp h).1⟩

theorem mem_lookup_of_wellHashed (m : HashMultimap) (h : m.WellHashed) (e : IndexEntry)
    (he : e ∈ m.entries) : e ∈ m.lookup e.key := by
  obtain ⟨i, hi⟩ := (mem_entries_iff m e).mp he
  rw [mem_lookup_iff]
  refine ⟨?_, rfl⟩
  rw [h i e hi]; exact hi

/-! ### In-place rewriting -/

theorem mapEntries_entries (f : IndexEntry → IndexEntry) (m : HashMultimap) :
    (m.mapEntries f).entries = m.entries.map f := by
  simp [mapEntries, entries, List.map_flatten]

theorem mapEntries_buckets_length (f : IndexEntry → IndexEntry) (m : HashMultimap) :
    (m.mapEntries f).buckets.length = m.buckets.length := by
  simp [mapEntries]

theorem mapEntries_size (f : IndexEntry → IndexEntry) (m : HashMultimap) :
    (m.mapEntries f).size = m.size := by
  simp [size, mapEntries_entries]

theorem bucketAt_mapEntries (f : IndexEntry → IndexEntry) (m : HashMultimap) (i : Nat) :
    bucketAt i (m.mapEntries f).buckets = (bucketAt i m.buckets).map f :=
  bucketAt_map (List.map f) rfl i m.buckets

theorem mapEntries_slot (f : IndexEntry → IndexEntry) (m : HashMultimap) (k : VertexId) :
    (m.mapEntries f).slot k = m.slot k := by
  simp [slot, mapEntries_buckets_length]

theorem lookup_mapEntries (f : IndexEntry → IndexEntry) (hf : ∀ e, (f e).key = e.key)
    (m : HashMultimap) (k : VertexId) :
    (m.mapEntries f).lookup k = (m.lookup k).map f := by
  unfold lookup
  rw [mapEntries_slot, bucketAt_mapEntries, List.filter_map]
  congr 1
  apply List.filter_congr
  intro e _
  simp [hf]

theorem mapEntries_wellHashed (f : IndexEntry → IndexEntry) (hf : ∀ e, (f e).key = e.key)
    (m : HashMultimap) (h : m.WellHashed) : (m.mapEntries f).WellHashed := by
  intro i x hx
  rw [bucketAt_mapEntries] at hx
  obtain ⟨e, he, rfl⟩ := List.mem_map.mp hx
  rw [mapEntries_slot, hf]
  exact h i e he

/-! ### Physical erasure -/

theorem eraseEntries_entries (p : IndexEntry → Bool) (m : HashMultimap) :
    (m.eraseEntries p).entries = m.entries.filter (fun e => !p e) := by
  simp [eraseEntries, entries, List.filter_flatten]

theorem eraseEntries_buckets_length (p : IndexEntry → Bool) (m : HashMultimap) :
    (m.eraseEntries p).buckets.length = m.buckets.length := by
  simp [eraseEntries]

theorem bucketAt_eraseEntries (p : IndexEntry → Bool) (m : HashMultimap) (i : Nat) :
    bucketAt i (m.eraseEntries p).buckets = (bucketAt i m.buckets).filter (fun e => !p e) :=
  bucketAt_map (List.filter (fun e => !p e)) rfl i m.buckets

theorem eraseEntries_slot (p : IndexEntry → Bool) (m : HashMultimap) (k : VertexId) :
    (m.eraseEntries p).slot k = m.slot k := by
  simp [slot, eraseEntries_buckets_length]

theorem eraseEntries_wellHashed (p : IndexEntry → Bool) (m : HashMultimap)
    (h : m.WellHashed) : (m.eraseEntries p).WellHashed := by
  intro i x hx
  rw [bucketAt_eraseEntries] at hx
  rw [eraseEntries_slot]
  exact h i x (List.mem_filter.mp hx).1

theorem eraseEntries_of_none (p : IndexEntry → Bool) (m : HashMultimap)
    (h : ∀ e ∈ m.entries, p e = false) : m.eraseEntries p = m := by
  obtain ⟨bs⟩ := m
  simp only [eraseEntries, entries] at *
  congr 1
  induction bs with
  | nil => rfl
  | cons b bs ih =>
    simp only [List.map_cons]
    rw [ih (fun e he => h e (by simp [he]))]
    congr 1
    apply List.filter_eq_self.mpr
    intro e he
    simp [h e (by simp [he])]

/-! ### Resizing -/

theorem foldl_insert_entries_perm (es : List IndexEntry) (m : HashMultimap) :
    List.Perm (es.foldl (fun acc e => acc.insert e) m).entries (es ++ m.entries) := by
  induction es generalizing m with
  | nil => simp
  | cons e es ih =>
    simp only [List.foldl_cons]
    refine (ih (m.insert e)).trans ?_
    refine (List.Perm.append_left es (insert_entries_perm m e)).trans ?_
    simp

theorem foldl_insert_wellHashed (es : List IndexEntry) (m : HashMultimap) (h : m.WellHashed) :
    (es.foldl (fun acc e => acc.insert e) m).WellHashed := by
  induction es generalizing m with
  | nil => simpa using h
  | cons e es ih => exact ih _ (insert_wellHashed m e h)

theorem resize_entries_perm (n : Nat) (m : HashMultimap) :
    List.Perm (m.resize n).entries m.entries := by
  have := foldl_insert_entries_perm m.entries (empty n)
  simpa [resize, empty_entries] using this

theorem resize_wellHashed (n : Nat) (m : HashMultimap) : (m.resize n).WellHashed :=
  foldl_insert_wellHashed _ _ (empty_wellHashed n)

theorem sizeHint_entries_perm (n : Nat) (m : HashMultimap) :
    List.Perm (m.sizeHint n).entries m.entries := by
  unfold sizeHint
  split
  · exact resize_entries_perm n m
  · exact List.Perm.refl _

theorem sizeHint_wellHashed (n : Nat) (m : HashMultimap) (h : m.WellHashed) :
    (m.sizeHint n).WellHashed := by
  unfold sizeHint
  split
  · exact resize_wellHashed n m
  · exact h

end HashMultimap

/-! ## Visibility -/

theorem filter_map_congr {α β : Type} (f : α → α) (p : α → Bool) (g : α → β) (l : List α)
    (hp : ∀ e ∈ l, p (f e) = p e) (hg : ∀ e ∈ l, g (f e) = g e) :
    ((l.map f).filter p).map g = (l.filter p).map g := by
  induction l with
  | nil => rfl
  | cons a l ih =>
    have ih2 := ih (fun e he => hp e (by simp [he])) (fun e he => hg e (by simp [he]))
    have hpa := hp a (by simp)
    have hga := hg a (by simp)
    simp only [List.map_cons, List.filter_cons, hpa]
    split
    · simp only [List.map_cons, hga, ih2]
    · exact ih2

theorem commitEntry_key (txn : TransactionCollection) (e : IndexEntry) :
    (commitEntry txn e).key = e.key := rfl

theorem commitEntry_doc (txn : TransactionCollection) (e : IndexEntry) :
    (commitEntry txn e).doc = e.doc := rfl

theorem markRemoved_key (txn : TransactionCollection) (doc : EdgeDocumentRef) (e : IndexEntry) :
    (markRemoved txn doc e).key = e.key := by
  unfold markRemoved; split <;> rfl

theorem markRemoved_doc (txn : TransactionCollection) (doc : EdgeDocumentRef) (e : IndexEntry) :
    (markRemoved txn doc e).doc = e.doc := by
  unfold markRemoved; split <;> rfl

/-- The visibility rule on live tags, spelled out. -/
theorem visibleTo_live_iff (txn : TransactionCollection) (t : Tag) (h : t.isLive = true) :
    t.visibleTo txn = true ↔
      (∃ c, t = .committed c ∧ c < txn.startSeq) ∨ t = .pending txn.id := by
  cases t with
  | pending o => simp [Tag.visibleTo]
  | committed c => simp [Tag.visibleTo]
  | tombstonePending o ins => simp [Tag.isLive] at h
  | tombstoneCommitted c r => simp [Tag.isLive] at h

/-- A commit of `t1` does not change what a transaction sees that is not `t1`
and started no later than the commit sequence number of `t1`. -/
theorem visibleTo_commit_of_concurrent (t1 t2 : TransactionCollection) (t : Tag)
    (hid : t2.id ≠ t1.id) (hseq : t2.startSeq ≤ t1.commitSeq) :
    (t.commit t1).visibleTo t2 = t.visibleTo t2 := by
  have hid2 : ¬ t1.id = t2.id := fun h => hid h.symm
  cases t with
  | pending o =>
    by_cases ho : o = t1.id
    · subst ho
      simp [Tag.commit, Tag.visibleTo, hid2, Nat.not_lt.mpr hseq]
    · simp [Tag.commit, ho]
  | committed c => rfl
  | tombstonePending o ins =>
    by_cases ho : o = t1.id
    · subst ho
      cases ins with
      | none => simp [Tag.commit, Tag.visibleTo, Nat.not_lt.mpr hseq]
      | some c => simp [Tag.commit, Tag.visibleTo, hid2, Nat.not_lt.mpr hseq]
    · simp [Tag.commit, ho]
  | tombstoneCommitted c r => rfl

namespace EdgeIndex

theorem lookupFrom_insert (idx : EdgeIndex) (txn r : TransactionCollection)
    (doc : EdgeDocumentRef) (v : VertexId) :
    (idx.insert txn doc).lookupFrom r v =
      if doc.fromVertex = v ∧ txn.id = r.id then doc :: idx.lookupFrom r v
      else idx.lookupFrom r v := by
  simp only [lookupFrom, insert, HashMultimap.lookup_insert]
  by_cases hv : doc.fromVertex = v
  · by_cases hr : txn.id = r.id
    · simp [hv, hr, List.filter_cons, IndexEntry.visibleTo, Tag.visibleTo]
    · simp [hv, hr, List.filter_cons, IndexEntry.visibleTo, Tag.visibleTo]
  · simp [hv]

theorem lookupTo_insert (idx : EdgeIndex) (txn r : TransactionCollection)
    (doc : EdgeDocumentRef) (v : VertexId) :
    (idx.insert txn doc).lookupTo r v =
      if doc.toVertex = v ∧ txn.id = r.id then doc :: idx.lookupTo r v
      else idx.lookupTo r v := by
  simp only [lookupTo, insert, HashMultimap.lookup_insert]
  by_cases hv : doc.toVertex = v
  · by_cases hr : txn.id = r.id
    · simp [hv, hr, List.filter_cons, IndexEntry.visibleTo, Tag.visibleTo]
    · simp [hv, hr, List.filter_cons, IndexEntry.visibleTo, Tag.visibleTo]
  · simp [hv]

theorem lookupFrom_preCommit (idx : EdgeIndex) (txn r : TransactionCollection) (v : VertexId) :
    (idx.preCommit txn).lookupFrom r v =
      (((idx._from.lookup v).map (commitEntry txn)).filter (IndexEntry.visibleTo r)).map
        IndexEntry.doc := by
  simp only [lookupFrom, preCommit]
  rw [HashMultimap.lookup_mapEntries _ (commitEntry_key txn)]

theorem lookupTo_preCommit (idx : EdgeIndex) (txn r : TransactionCollection) (v : VertexId) :
    (idx.preCommit txn).lookupTo r v =
      (((idx._to.lookup v).map (commitEntry txn)).filter (IndexEntry.visibleTo r)).map
        IndexEntry.doc := by
  simp only [lookupTo, preCommit]
  rw [HashMultimap.lookup_mapEntries _ (commitEntry_key txn)]

/-- Snapshot isolation of `preCommit`: the lookups of a transaction other than
`txn` that started no later than the commit of `txn` are not changed by it. -/
theorem lookup_preCommit_of_concurrent (idx : EdgeIndex) (txn r : TransactionCollection)
    (hid : r.id ≠ txn.id) (hseq : r.startSeq ≤ txn.commitSeq) (v : VertexId) :
    (idx.preCommit txn).lookupFrom r v = idx.lookupFrom r v ∧
    (idx.preCommit txn).lookupTo r v = idx.lookupTo r v := by
  rw [lookupFrom_preCommit, lookupTo_preCommit]
  constructor
  · exact filter_map_congr _ _ _ _
      (fun e _ => visibleTo_commit_of_concurrent txn r e.tag hid hseq) (fun _ _ => rfl)
  · exact filter_map_congr _ _ _ _
      (fun e _ => visibleTo_commit_of_concurrent txn r e.tag hid hseq) (fun _ _ => rfl)

end EdgeIndex

/-! ## Visibility isolation (C1) -/

theorem EdgeIndex.not_mem_lookup_of_absent (idx : EdgeIndex) (doc : EdgeDocumentRef)
    (h : idx.Absent doc) (v : VertexId) :
    (∀ e ∈ idx._from.lookup v, e.doc ≠ doc) ∧ (∀ e ∈ idx._to.lookup v, e.doc ≠ doc) :=
  ⟨fun e he => h e (List.mem_append_left _ (HashMultimap.mem_entries_of_mem_lookup _ e v he)),
    fun e he => h e (List.mem_append_right _ (HashMultimap.mem_entries_of_mem_lookup _ e v he))⟩

/-- A chain without entries of the document shows it to nobody. -/
theorem not_mem_docs_of_absent (r : TransactionCollection) (doc : EdgeDocumentRef)
    (f : IndexEntry → IndexEntry) (hf : ∀ e, (f e).doc = e.doc) (l : List IndexEntry)
    (hl : ∀ e ∈ l, e.doc ≠ doc) :
    doc ∉ (((l.map f).filter (IndexEntry.visibleTo r)).map IndexEntry.doc) := by
  simp only [List.mem_map, List.mem_filter, not_exists, not_and]
  rintro e2 ⟨⟨e, he, rfl⟩, _⟩ hd
  exact hl e he ((hf e).symm.trans hd)

theorem not_mem_visible_docs_of_absent (r : TransactionCollection) (doc : EdgeDocumentRef)
    (l : List IndexEntry) (hl : ∀ e ∈ l, e.doc ≠ doc) :
    doc ∉ ((l.filter (IndexEntry.visibleTo r)).map IndexEntry.doc) := by
  simp only [List.mem_map, List.mem_filter, not_exists, not_and]
  rintro e ⟨he, _⟩ hd
  exact hl e he hd

/-- What a chain shows of a document whose only entry is the pending entry of
`t1` at its head. -/
theorem mem_docs_pending_head (t1 r : TransactionCollection) (doc : EdgeDocumentRef)
    (k : VertexId) (l : List IndexEntry) (hl : ∀ e ∈ l, e.doc ≠ doc) :
    (doc ∈ (((⟨k, doc, .pending t1.id⟩ :: l).filter (IndexEntry.visibleTo r)).map
        IndexEntry.doc) ↔ r.id = t1.id) ∧
    (doc ∈ ((((⟨k, doc, .pending t1.id⟩ :: l).map (commitEntry t1)).filter
        (IndexEntry.visibleTo r)).map IndexEntry.doc) ↔ t1.commitSeq < r.startSeq) := by
  have h1 := not_mem_visible_docs_of_absent r doc l hl
  have h2 := not_mem_docs_of_absent r doc (commitEntry t1) (commitEntry_doc t1) l hl
  constructor
  · by_cases hr : t1.id = r.id
    · simp [List.filter_cons, IndexEntry.visibleTo, Tag.visibleTo, hr]
    · have hr2 : ¬ r.id = t1.id := fun h => hr h.symm
      simpa [List.filter_cons, IndexEntry.visibleTo, Tag.visibleTo, hr, hr2] using h1
  · by_cases hc : t1.commitSeq < r.startSeq
    · simp [List.filter_cons, IndexEntry.visibleTo, Tag.visibleTo, commitEntry, Tag.commit, hc]
    · have h3 : (commitEntry t1 ⟨k, doc, .pending t1.id⟩).visibleTo r = false := by
        simp [IndexEntry.visibleTo, Tag.visibleTo, commitEntry, Tag.commit, hc]
      simp only [List.map_cons, List.filter_cons, h3]
      simpa [hc] using h2

/-- The lookups after `insert(t1, doc)` of a document that had no entry. -/
theorem EdgeIndex.mem_lookup_insert_of_absent (idx : EdgeIndex) (doc : EdgeDocumentRef)
    (t1 r : TransactionCollection) (h : idx.Absent doc) (v : VertexId) :
    (doc ∈ (idx.insert t1 doc).lookupFrom r v ↔ v = doc.fromVertex ∧ r.id = t1.id) ∧
    (doc ∈ (idx.insert t1 doc).lookupTo r v ↔ v = doc.toVertex ∧ r.id = t1.id) := by
  have hn := EdgeIndex.not_mem_lookup_of_absent idx doc h v
  constructor
  · simp only [EdgeIndex.lookupFrom, EdgeIndex.insert, HashMultimap.lookup_insert]
    by_cases hv : doc.fromVertex = v
    · rw [if_pos hv, (mem_docs_pending_head t1 r doc _ _ hn.1).1]
      simp [hv.symm]
    · rw [if_neg hv]
      have := not_mem_visible_docs_of_absent r doc _ hn.1
      have hv2 : ¬ v = doc.fromVertex := fun h => hv h.symm
      simp [this, hv2]
  · simp only [EdgeIndex.lookupTo, EdgeIndex.insert, HashMultimap.lookup_insert]
    by_cases hv : doc.toVertex = v
    · rw [if_pos hv, (mem_docs_pending_head t1 r doc _ _ hn.2).1]
      simp [hv.symm]
    · rw [if_neg hv]
      have := not_mem_visible_docs_of_absent r doc _ hn.2
      have hv2 : ¬ v = doc.toVertex := fun h => hv h.symm
      simp [this, hv2]

/-- The lookups after `insert(t1, doc)` and `preCommit(t1)` of a document that
had no entry. -/
theorem EdgeIndex.mem_lookup_insert_preCommit_of_absent (idx : EdgeIndex)
    (doc : EdgeDocumentRef) (t1 r : TransactionCollection) (h : idx.Absent doc)
    (v : VertexId) :
    (doc ∈ ((idx.insert t1 doc).preCommit t1).lookupFrom r v ↔
        v = doc.fromVertex ∧ t1.commitSeq < r.startSeq) ∧
    (doc ∈ ((idx.insert t1 doc).preCommit t1).lookupTo r v ↔
        v = doc.toVertex ∧ t1.commitSeq < r.startSeq) := by
  have hn := EdgeIndex.not_mem_lookup_of_absent idx doc h v
  rw [EdgeIndex.lookupFrom_preCommit, EdgeIndex.lookupTo_preCommit]
  simp only [EdgeIndex.insert, HashMultimap.lookup_insert]
  constructor
  · by_cases hv : doc.fromVertex = v
    · rw [if_pos hv, (mem_docs_pending_head t1 r doc _ _ hn.1).2]
      simp [hv.symm]
    · rw [if_neg hv]
      have := not_mem_docs_of_absent r doc (commitEntry t1) (commitEntry_doc t1) _ hn.1
      have hv2 : ¬ v = doc.fromVertex := fun h => hv h.symm
      simp [this, hv2]
  · by_cases hv : doc.toVertex = v
    · rw [if_pos hv, (mem_docs_pending_head t1 r doc _ _ hn.2).2]
      simp [hv.symm]
    · rw [if_neg hv]
      have := not_mem_docs_of_absent r doc (commitEntry t1) (commitEntry_doc t1) _ hn.2
      have hv2 : ¬ v = doc.toVertex := fun h => hv h.symm
      simp [this, hv2]

/-- C1: let `doc` be a document without entry in the index and `t1` a
transaction.  After `insert(t1, doc)` and before `preCommit(t1)` the lookups of
`t1` see `doc` and the lookups of every other transaction do not, under any
vertex; a transaction sees `doc` through a map iff it looks under the right
vertex and owns the pending entry.  After `preCommit(t1)` every transaction that
starts after the commit of `t1` sees `doc` through both maps and every
transaction that started no later than that commit does not; a transaction sees
`doc` through a map iff it looks under the right vertex and the entry committed
before the transaction started.  In general a transaction sees an entry that is
pending or committed iff the entry is committed and committed before the
transaction started, or pending and owned by the transaction. -/
theorem visibility_isolation (idx : EdgeIndex) (doc : EdgeDocumentRef)
    (t1 : TransactionCollection) (hfresh : idx.Absent doc) :
    (doc ∈ (idx.insert t1 doc).lookupFrom t1 doc.fromVertex ∧
      doc ∈ (idx.insert t1 doc).lookupTo t1 doc.toVertex) ∧
    (∀ (t2 : TransactionCollection) (v : VertexId), t2.id ≠ t1.id →
      doc ∉ (idx.insert t1 doc).lookupFrom t2 v ∧ doc ∉ (idx.insert t1 doc).lookupTo t2 v) ∧
    (∀ (t2 : TransactionCollection) (v : VertexId), t2.startSeq ≤ t1.commitSeq →
      doc ∉ ((idx.insert t1 doc).preCommit t1).lookupFrom t2 v ∧
      doc ∉ ((idx.insert t1 doc).preCommit t1).lookupTo t2 v) ∧
    (∀ t3 : TransactionCollection, t1.commitSeq < t3.startSeq →
      doc ∈ ((idx.insert t1 doc).preCommit t1).lookupFrom t3 doc.fromVertex ∧
      doc ∈ ((idx.insert t1 doc).preCommit t1).lookupTo t3 doc.toVertex) ∧
    (∀ (t : TransactionCollection) (v : VertexId),
      ((doc ∈ (idx.insert t1 doc).lookupFrom t v ↔ v = doc.fromVertex ∧ t.id = t1.id) ∧
        (doc ∈ (idx.insert t1 doc).lookupTo t v ↔ v = doc.toVertex ∧ t.id = t1.id)) ∧
      ((doc ∈ ((idx.insert t1 doc).preCommit t1).lookupFrom t v ↔
          v = doc.fromVertex ∧ t1.commitSeq < t.startSeq) ∧
        (doc ∈ ((idx.insert t1 doc).preCommit t1).lookupTo t v ↔
          v = doc.toVertex ∧ t1.commitSeq < t.startSeq))) ∧
    (∀ (t : TransactionCollection) (e : IndexEntry), e.tag.isLive = true →
      (e.visibleTo t = true ↔
        (∃ c, e.tag = .committed c ∧ c < t.startSeq) ∨ e.tag = .pending t.id)) := by
  have hpend := fun t v => EdgeIndex.mem_lookup_insert_of_absent idx doc t1 t hfresh v
  have hcomm := fun t v => EdgeIndex.mem_lookup_insert_preCommit_of_absent idx doc t1 t hfresh v
  refine ⟨⟨?_, ?_⟩, ?_, ?_, ?_, fun t v => ⟨hpend t v, hcomm t v⟩, ?_⟩
  · exact (hpend t1 _).1.mpr ⟨rfl, rfl⟩
  · exact (hpend t1 _).2.mpr ⟨rfl, rfl⟩
  · intro t2 v hid
    exact ⟨fun h => hid ((hpend t2 v).1.mp h).2, fun h => hid ((hpend t2 v).2.mp h).2⟩
  · intro t2 v hseq
    exact ⟨fun h => Nat.not_lt.mpr hseq ((hcomm t2 v).1.mp h).2,
      fun h => Nat.not_lt.mpr hseq ((hcomm t2 v).2.mp h).2⟩
  · intro t3 h3
    exact ⟨(hcomm t3 _).1.mpr ⟨rfl, h3⟩, (hcomm t3 _).2.mpr ⟨rfl, h3⟩⟩
  · intro t e he
    exact visibleTo_live_iff t e.tag he

theorem Scenario.afterCommit_absent_E2 : Scenario.afterCommit.Absent Scenario.E2 := by
  intro e he
  have hes : Scenario.afterCommit._from.entries ++ Scenario.afterCommit._to.entries =
      [⟨1, Scenario.E1, .committed 11⟩, ⟨2, Scenario.E1, .committed 11⟩] := by decide
  rw [hes] at he
  simp only [List.mem_cons, List.mem_singleton, List.not_mem_nil, or_false] at he
  rcases he with rfl | rfl <;> decide

/-- C1 witness: on the index that already holds `E1` committed, `T2` (sequence
number 30, commit 31) inserts the new edge `E2`.  Before `preCommit(T2)` only
`T2` sees `E2`, the reader with sequence number 5 does not; afterwards the
reader with sequence number 40 sees `E2` from vertex 2 and to vertex 3 and the
reader with sequence number 15 does not. -/
theorem visibility_isolation_witness :
    Scenario.afterCommit.Absent Scenario.E2 ∧
    (Scenario.E2 ∈ (Scenario.afterCommit.insert Scenario.T2 Scenario.E2).lookupFrom
        Scenario.T2 2 ∧
      Scenario.E2 ∉ (Scenario.afterCommit.insert Scenario.T2 Scenario.E2).lookupFrom
        (Scenario.reader 5) 2) ∧
    (Scenario.E2 ∈ ((Scenario.afterCommit.insert Scenario.T2 Scenario.E2).preCommit
        Scenario.T2).lookupFrom (Scenario.reader 40) 2 ∧
      Scenario.E2 ∈ ((Scenario.afterCommit.insert Scenario.T2 Scenario.E2).preCommit
        Scenario.T2).lookupTo (Scenario.reader 40) 3 ∧
      Scenario.E2 ∉ ((Scenario.afterCommit.insert Scenario.T2 Scenario.E2).preCommit
        Scenario.T2).lookupFrom (Scenario.reader 15) 2) := by
  have h := visibility_isolation Scenario.afterCommit Scenario.E2 Scenario.T2
    Scenario.afterCommit_absent_E2
  refine ⟨Scenario.afterCommit_absent_E2, ⟨h.1.1, ?_⟩, ?_, ?_, ?_⟩
  · exact (h.2.1 (Scenario.reader 5) 2 (by decide)).1
  · exact (h.2.2.2.1 (Scenario.reader 40) (by decide)).1
  · exact (h.2.2.2.1 (Scenario.reader 40) (by decide)).2
  · exact (h.2.2.1 (Scenario.reader 15) 2 (by decide)).1

/-! ## Tombstones (C2) -/

theorem EdgeIndex.remove_eq (idx : EdgeIndex) (txn : TransactionCollection)
    (doc : EdgeDocumentRef) :
    idx.remove txn doc =
      if (idx._from.entries ++ idx._to.entries).any (removable txn doc) then
        .ok (idx.removed txn doc)
      else .error .NotFound := by
  simp only [EdgeIndex.remove, EdgeIndex.removed, List.any_append]

theorem EdgeIndex.lookupFrom_removed_preCommit (idx : EdgeIndex) (txn r : TransactionCollection)
    (doc : EdgeDocumentRef) (v : VertexId) :
    ((idx.removed txn doc).preCommit txn).lookupFrom r v =
      ((((idx._from.lookup v).map (markRemoved txn doc)).map (commitEntry txn)).filter
        (IndexEntry.visibleTo r)).map IndexEntry.doc := by
  rw [EdgeIndex.lookupFrom_preCommit]
  simp only [EdgeIndex.removed]
  rw [HashMultimap.lookup_mapEntries _ (markRemoved_key txn doc)]

theorem EdgeIndex.lookupTo_removed_preCommit (idx : EdgeIndex) (txn r : TransactionCollection)
    (doc : EdgeDocumentRef) (v : VertexId) :
    ((idx.removed txn doc).preCommit txn).lookupTo r v =
      ((((idx._to.lookup v).map (markRemoved txn doc)).map (commitEntry txn)).filter
        (IndexEntry.visibleTo r)).map IndexEntry.doc := by
  rw [EdgeIndex.lookupTo_preCommit]
  simp only [EdgeIndex.removed]
  rw [HashMultimap.lookup_mapEntries _ (markRemoved_key txn doc)]

/-- What removal and commit by `txn` make of a committed entry `txn` sees. -/
theorem commitEntry_markRemoved_committed (txn : TransactionCollection) (e : IndexEntry)
    (c : Nat) (htag : e.tag = .committed c) (hc : c < txn.startSeq) :
    commitEntry txn (markRemoved txn e.doc e) =
      ⟨e.key, e.doc, .tombstoneCommitted c txn.commitSeq⟩ := by
  obtain ⟨k, d, t⟩ := e
  simp only at htag
  subst htag
  simp [markRemoved, removable, Tag.isLive, Tag.visibleTo, hc, commitEntry, Tag.tombstoneBy,
    Tag.commit]

/-- After removal and commit, a chain of entries shows the document to a reader
only through entries that are still visible as committed tombstones. -/
theorem mem_docs_removed_preCommit (txn r : TransactionCollection) (doc : EdgeDocumentRef)
    (l : List IndexEntry)
    (hl : ∀ e ∈ l, e.doc = doc → ∃ c, e.tag = .committed c ∧ c < txn.startSeq) :
    doc ∈ ((((l.map (markRemoved txn doc)).map (commitEntry txn)).filter
        (IndexEntry.visibleTo r)).map IndexEntry.doc) ↔
      ∃ e ∈ l, e.doc = doc ∧ ∃ c, e.tag = .committed c ∧ c < r.startSeq ∧
        ¬ txn.commitSeq < r.startSeq := by
  simp only [List.mem_map, List.mem_filter]
  constructor
  · rintro ⟨e2, ⟨⟨e1, ⟨e, he, rfl⟩, rfl⟩, hvis⟩, hdoc⟩
    have hd : e.doc = doc := by
      rw [commitEntry_doc, markRemoved_doc] at hdoc; exact hdoc
    obtain ⟨c, htag, hc⟩ := hl e he hd
    subst hd
    rw [commitEntry_markRemoved_committed txn e c htag hc] at hvis
    simp only [IndexEntry.visibleTo, Tag.visibleTo, Bool.and_eq_true, decide_eq_true_eq,
      Bool.not_eq_true', decide_eq_false_iff_not] at hvis
    exact ⟨e, he, rfl, c, htag, hvis.1, hvis.2⟩
  · rintro ⟨e, he, hd, c, htag, hcr, hnot⟩
    obtain ⟨c2, htag2, hc⟩ := hl e he hd
    subst hd
    refine ⟨commitEntry txn (markRemoved txn e.doc e), ⟨⟨_, ⟨e, he, rfl⟩, rfl⟩, ?_⟩, ?_⟩
    · rw [commitEntry_markRemoved_committed txn e c2 htag2 hc]
      have hcc : c2 = c := by rw [htag2] at htag; cases htag; rfl
      subst hcc
      simp [IndexEntry.visibleTo, Tag.visibleTo, hcr, hnot]
    · rw [commitEntry_doc, markRemoved_doc]

/-- A reader sees the document in a chain of committed entries exactly through an
entry committed before the reader started. -/
theorem mem_docs_committed (r : TransactionCollection) (doc : EdgeDocumentRef)
    (l : List IndexEntry) (txn : TransactionCollection)
    (hl : ∀ e ∈ l, e.doc = doc → ∃ c, e.tag = .committed c ∧ c < txn.startSeq) :
    doc ∈ (l.filter (IndexEntry.visibleTo r)).map IndexEntry.doc ↔
      ∃ e ∈ l, e.doc = doc ∧ ∃ c, e.tag = .committed c ∧ c < r.startSeq := by
  simp only [List.mem_map, List.mem_filter]
  constructor
  · rintro ⟨e, ⟨he, hvis⟩, hd⟩
    obtain ⟨c, htag, _⟩ := hl e he hd
    refine ⟨e, he, hd, c, htag, ?_⟩
    simpa [IndexEntry.visibleTo, htag, Tag.visibleTo] using hvis
  · rintro ⟨e, he, hd, c, htag, hc⟩
    refine ⟨e, ⟨he, ?_⟩, hd⟩
    simp [IndexEntry.visibleTo, htag, Tag.visibleTo, hc]

theorem HashMultimap.lookup_eraseEntries (p : IndexEntry → Bool) (m : HashMultimap)
    (k : VertexId) :
    (m.eraseEntries p).lookup k = (m.lookup k).filter (fun e => !p e) := by
  unfold HashMultimap.lookup
  rw [HashMultimap.eraseEntries_slot, HashMultimap.bucketAt_eraseEntries, List.filter_filter,
    List.filter_filter]
  apply List.filter_congr
  intro e _
  exact Bool.and_comm _ _

theorem HashMultimap.mem_lookup_sizeHint (m : HashMultimap) (n : Nat) (e : IndexEntry)
    (k : VertexId) (h : e ∈ m.lookup k) : e ∈ (m.sizeHint n).lookup k := by
  unfold HashMultimap.sizeHint
  split
  · have hk : e.key = k := ((HashMultimap.mem_lookup_iff m e k).mp h).2
    have he : e ∈ (m.resize n).entries :=
      (HashMultimap.resize_entries_perm n m).mem_iff.mpr
        (HashMultimap.mem_entries_of_mem_lookup m e k h)
    have := HashMultimap.mem_lookup_of_wellHashed _ (HashMultimap.resize_wellHashed n m) e he
    rw [hk] at this
    exact this
  · exact h

/-- An entry that carries a committed tombstone stays where a lookup finds it
under every later call on a map other than the erasure of its document. -/
theorem HashMultimap.tombstone_kept (m : HashMultimap) (e : IndexEntry) (c r : Nat)
    (htag : e.tag = .tombstoneCommitted c r) (v : VertexId) (h : e ∈ m.lookup v) :
    (∀ x : IndexEntry, e ∈ (m.insert x).lookup v) ∧
    (∀ txn doc, e ∈ (m.mapEntries (markRemoved txn doc)).lookup v) ∧
    (∀ txn, e ∈ (m.mapEntries (commitEntry txn)).lookup v) ∧
    (∀ txn doc, doc ≠ e.doc → e ∈ (m.eraseEntries (forgettable txn doc)).lookup v) ∧
    (∀ n, e ∈ (m.sizeHint n).lookup v) := by
  refine ⟨?_, ?_, ?_, ?_, fun n => HashMultimap.mem_lookup_sizeHint m n e v h⟩
  · intro x
    rw [HashMultimap.lookup_insert]
    split
    · exact List.mem_cons_of_mem _ h
    · exact h
  · intro txn doc
    rw [HashMultimap.lookup_mapEntries _ (markRemoved_key txn doc)]
    refine List.mem_map.mpr ⟨e, h, ?_⟩
    simp [markRemoved, removable, htag, Tag.isLive]
  · intro txn
    rw [HashMultimap.lookup_mapEntries _ (commitEntry_key txn)]
    refine List.mem_map.mpr ⟨e, h, ?_⟩
    obtain ⟨k, d, t⟩ := e
    simp only at htag
    subst htag
    rfl
  · intro txn doc hd
    rw [HashMultimap.lookup_eraseEntries]
    refine List.mem_filter.mpr ⟨h, ?_⟩
    have hd2 : ¬ e.doc = doc := fun h => hd h.symm
    simp [forgettable, hd2]

theorem EdgeIndex.forget_cases (idx : EdgeIndex) (txn : TransactionCollection)
    (doc : EdgeDocumentRef) :
    idx.forget txn doc = .error .NotFound ∨ idx.forget txn doc = .ok (idx.forgotten txn doc) := by
  unfold EdgeIndex.forget EdgeIndex.forgotten
  split
  · exact Or.inl rfl
  · exact Or.inr rfl

theorem IndexOp.run_keeps_tombstone (idx : EdgeIndex) (op : IndexOp) (e : IndexEntry)
    (c r : Nat) (htag : e.tag = .tombstoneCommitted c r) (v : VertexId)
    (hop : ∀ txn, op ≠ .forget txn e.doc) :
    (e ∈ idx._from.lookup v → e ∈ (op.run idx)._from.lookup v) ∧
    (e ∈ idx._to.lookup v → e ∈ (op.run idx)._to.lookup v) := by
  cases op with
  | insert txn doc =>
    exact ⟨fun h => (HashMultimap.tombstone_kept _ e c r htag v h).1 _,
      fun h => (HashMultimap.tombstone_kept _ e c r htag v h).1 _⟩
  | remove txn doc =>
    by_cases hany : (idx._from.entries ++ idx._to.entries).any (removable txn doc) = true
    · have hrun : idx.remove txn doc = .ok (idx.removed txn doc) := by
        rw [EdgeIndex.remove_eq, if_pos hany]
      simp only [IndexOp.run, hrun, EdgeIndex.removed]
      exact ⟨fun h => (HashMultimap.tombstone_kept _ e c r htag v h).2.1 txn doc,
        fun h => (HashMultimap.tombstone_kept _ e c r htag v h).2.1 txn doc⟩
    · have hrun : idx.remove txn doc = .error .NotFound := by
        rw [EdgeIndex.remove_eq, if_neg hany]
      simp only [IndexOp.run, hrun]
      exact ⟨fun h => h, fun h => h⟩
  | forget txn doc =>
    have hd : doc ≠ e.doc := fun h => hop txn (by rw [h])
    rcases EdgeIndex.forget_cases idx txn doc with hrun | hrun
    · simp only [IndexOp.run, hrun]
      exact ⟨fun h => h, fun h => h⟩
    · simp only [IndexOp.run, hrun, EdgeIndex.forgotten]
      exact ⟨fun h => (HashMultimap.tombstone_kept _ e c r htag v h).2.2.2.1 txn doc hd,
        fun h => (HashMultimap.tombstone_kept _ e c r htag v h).2.2.2.1 txn doc hd⟩
  | preCommit txn =>
    exact ⟨fun h => (HashMultimap.tombstone_kept _ e c r htag v h).2.2.1 txn,
      fun h => (HashMultimap.tombstone_kept _ e c r htag v h).2.2.1 txn⟩
  | sizeHint n =>
    exact ⟨fun h => (HashMultimap.tombstone_kept _ e c r htag v h).2.2.2.2 n,
      fun h => (HashMultimap.tombstone_kept _ e c r htag v h).2.2.2.2 n⟩

theorem runIndexOps_keeps_tombstone (idx : EdgeIndex) (ops : List IndexOp) (e : IndexEntry)
    (c r : Nat) (htag : e.tag = .tombstoneCommitted c r) (v : VertexId)
    (hops : ∀ txn, IndexOp.forget txn e.doc ∉ ops) :
    (e ∈ idx._from.lookup v → e ∈ (runIndexOps idx ops)._from.lookup v) ∧
    (e ∈ idx._to.lookup v → e ∈ (runIndexOps idx ops)._to.lookup v) := by
  induction ops generalizing idx with
  | nil => exact ⟨fun h => h, fun h => h⟩
  | cons op ops ih =>
    have hop : ∀ txn, op ≠ .forget txn e.doc := fun txn h =>
      hops txn (by rw [h]; exact List.mem_cons_self _ _)
    have hrest : ∀ txn, IndexOp.forget txn e.doc ∉ ops := fun txn h =>
      hops txn (List.mem_cons_of_mem _ h)
    have h1 := IndexOp.run_keeps_tombstone idx op e c r htag v hop
    have h2 := ih (op.run idx) hrest
    simp only [runIndexOps, List.foldl_cons] at h2 ⊢
    exact ⟨fun h => h2.1 (h1.1 h), fun h => h2.2 (h1.2 h)⟩

/-- A committed entry a reader sees in a chain is, after removal and commit by
`t`, the committed tombstone in the rewritten chain. -/
theorem mem_removed_committed (t : TransactionCollection) (doc : EdgeDocumentRef)
    (l : List IndexEntry) (e : IndexEntry) (c : Nat) (he : e ∈ l) (hd : e.doc = doc)
    (htag : e.tag = .committed c) (hc : c < t.startSeq) :
    (⟨e.key, doc, .tombstoneCommitted c t.commitSeq⟩ : IndexEntry) ∈
      (l.map (markRemoved t doc)).map (commitEntry t) := by
  subst hd
  rw [← commitEntry_markRemoved_committed t e c htag hc]
  exact List.mem_map.mpr ⟨_, List.mem_map.mpr ⟨e, he, rfl⟩, rfl⟩

/-- C2: for a document committed in the index before `t` started,
`remove(t, doc)` succeeds, and after the following `preCommit(t)` no transaction
that starts after the commit of `t` sees the document through the from map or
the to map (under any vertex), while every transaction that started no later
than that commit and saw the document through a map before the removal still
sees it through that map, and keeps seeing it after every sequence of later
`insert`, `remove`, `forget`, `preCommit` and `sizeHint` calls made while it
runs, as long as none of them is a `forget` of this document (which the garbage
collector may only call once no running transaction can still see it). -/
theorem tombstone_correctness (idx : EdgeIndex) (t : TransactionCollection)
    (doc : EdgeDocumentRef) (h : idx.CommittedFor t doc) :
    ∃ idx1, idx.remove t doc = .ok idx1 ∧
      (∀ (r : TransactionCollection) (v : VertexId), t.commitSeq < r.startSeq →
        doc ∉ (idx1.preCommit t).lookupFrom r v ∧ doc ∉ (idx1.preCommit t).lookupTo r v) ∧
      (∀ (r : TransactionCollection) (v : VertexId), r.startSeq ≤ t.commitSeq →
        (doc ∈ idx.lookupFrom r v → doc ∈ (idx1.preCommit t).lookupFrom r v) ∧
        (doc ∈ idx.lookupTo r v → doc ∈ (idx1.preCommit t).lookupTo r v)) ∧
      (∀ (r : TransactionCollection) (v : VertexId) (ops : List IndexOp),
        r.startSeq ≤ t.commitSeq → (∀ txn, IndexOp.forget txn doc ∉ ops) →
        (doc ∈ idx.lookupFrom r v →
          doc ∈ (runIndexOps (idx1.preCommit t) ops).lookupFrom r v) ∧
        (doc ∈ idx.lookupTo r v →
          doc ∈ (runIndexOps (idx1.preCommit t) ops).lookupTo r v)) := by
  obtain ⟨⟨e0, he0, hd0⟩, hall⟩ := h
  have hany : (idx._from.entries ++ idx._to.entries).any (removable t doc) = true := by
    rw [List.any_eq_true]
    obtain ⟨c, htag, hc⟩ := hall e0 he0 hd0
    exact ⟨e0, he0, by simp [removable, hd0, htag, Tag.isLive, Tag.visibleTo, hc]⟩
  have hfrom : ∀ v, ∀ e ∈ idx._from.lookup v, e.doc = doc →
      ∃ c, e.tag = .committed c ∧ c < t.startSeq := fun v e he hd =>
    hall e (List.mem_append_left _ (HashMultimap.mem_entries_of_mem_lookup _ e v he)) hd
  have hto : ∀ v, ∀ e ∈ idx._to.lookup v, e.doc = doc →
      ∃ c, e.tag = .committed c ∧ c < t.startSeq := fun v e he hd =>
    hall e (List.mem_append_right _ (HashMultimap.mem_entries_of_mem_lookup _ e v he)) hd
  have hlater : ∀ (r : TransactionCollection) (v : VertexId) (ops : List IndexOp),
      r.startSeq ≤ t.commitSeq → (∀ txn, IndexOp.forget txn doc ∉ ops) →
      (doc ∈ idx.lookupFrom r v →
        doc ∈ (runIndexOps ((idx.removed t doc).preCommit t) ops).lookupFrom r v) ∧
      (doc ∈ idx.lookupTo r v →
        doc ∈ (runIndexOps ((idx.removed t doc).preCommit t) ops).lookupTo r v) := by
    intro r v ops hr hops
    constructor
    · intro hsee
      unfold EdgeIndex.lookupFrom at hsee
      obtain ⟨e, he, hd, c, htag, hc⟩ := (mem_docs_committed r doc _ t (hfrom v)).mp hsee
      obtain ⟨c2, htag2, hc2⟩ := hfrom v e he hd
      have hcc : c2 = c := by rw [htag2] at htag; cases htag; rfl
      subst hcc
      have hmem : (⟨e.key, doc, .tombstoneCommitted c2 t.commitSeq⟩ : IndexEntry) ∈
          ((idx.removed t doc).preCommit t)._from.lookup v := by
        simp only [EdgeIndex.preCommit, EdgeIndex.removed]
        rw [HashMultimap.lookup_mapEntries _ (commitEntry_key t),
          HashMultimap.lookup_mapEntries _ (markRemoved_key t doc)]
        exact mem_removed_committed t doc _ e c2 he hd htag hc2
      have hkept := (runIndexOps_keeps_tombstone _ ops _ c2 t.commitSeq rfl v hops).1 hmem
      refine List.mem_map.mpr ⟨_, List.mem_filter.mpr ⟨hkept, ?_⟩, rfl⟩
      simp [IndexEntry.visibleTo, Tag.visibleTo, hc, Nat.not_lt.mpr hr]
    · intro hsee
      unfold EdgeIndex.lookupTo at hsee
      obtain ⟨e, he, hd, c, htag, hc⟩ := (mem_docs_committed r doc _ t (hto v)).mp hsee
      obtain ⟨c2, htag2, hc2⟩ := hto v e he hd
      have hcc : c2 = c := by rw [htag2] at htag; cases htag; rfl
      subst hcc
      have hmem : (⟨e.key, doc, .tombstoneCommitted c2 t.commitSeq⟩ : IndexEntry) ∈
          ((idx.removed t doc).preCommit t)._to.lookup v := by
        simp only [EdgeIndex.preCommit, EdgeIndex.removed]
        rw [HashMultimap.lookup_mapEntries _ (commitEntry_key t),
          HashMultimap.lookup_mapEntries _ (markRemoved_key t doc)]
        exact mem_removed_committed t doc _ e c2 he hd htag hc2
      have hkept := (runIndexOps_keeps_tombstone _ ops _ c2 t.commitSeq rfl v hops).2 hmem
      refine List.mem_map.mpr ⟨_, List.mem_filter.mpr ⟨hkept, ?_⟩, rfl⟩
      simp [IndexEntry.visibleTo, Tag.visibleTo, hc, Nat.not_lt.mpr hr]
  refine ⟨idx.removed t doc, ?_, ?_, ?_, hlater⟩
  · rw [EdgeIndex.remove_eq, if_pos hany]
  · intro r v hr
    rw [EdgeIndex.lookupFrom_removed_preCommit, EdgeIndex.lookupTo_removed_preCommit,
      mem_docs_removed_preCommit t r doc _ (hfrom v),
      mem_docs_removed_preCommit t r doc _ (hto v)]
    constructor
    · rintro ⟨e, _, _, c, _, _, hnot⟩; exact hnot hr
    · rintro ⟨e, _, _, c, _, _, hnot⟩; exact hnot hr
  · intro r v hr
    exact hlater r v [] hr (fun _ h => by cases h)

theorem Scenario.afterCommit_committedFor :
    Scenario.afterCommit.CommittedFor Scenario.T2 Scenario.E1 := by
  refine ⟨⟨⟨1, Scenario.E1, .committed 11⟩, by decide, rfl⟩, ?_⟩
  intro e he _
  have hes : Scenario.afterCommit._from.entries ++ Scenario.afterCommit._to.entries =
      [⟨1, Scenario.E1, .committed 11⟩, ⟨2, Scenario.E1, .committed 11⟩] := by decide
  rw [hes] at he
  simp only [List.mem_cons, List.mem_singleton, List.not_mem_nil, or_false] at he
  rcases he with rfl | rfl
  · exact ⟨11, rfl, by decide⟩
  · exact ⟨11, rfl, by decide⟩

/-- C2 witness: the concrete scenario.  After `remove(T2, E1)` and
`preCommit(T2)` (commit sequence number 31) the reader with sequence number 40
sees `E1` under neither vertex, and the reader with sequence number 15 still
sees it through both maps, also after a size hint of 8, the insertion and commit
of `E2` by the reader with sequence number 50 and a `forget` of `E2`. -/
theorem tombstone_correctness_witness :
    Scenario.afterCommit.CommittedFor Scenario.T2 Scenario.E1 ∧
    ∃ idx1, Scenario.afterCommit.remove Scenario.T2 Scenario.E1 = .ok idx1 ∧
      (Scenario.E1 ∉ (idx1.preCommit Scenario.T2).lookupFrom (Scenario.reader 40) 1 ∧
        Scenario.E1 ∉ (idx1.preCommit Scenario.T2).lookupTo (Scenario.reader 40) 2) ∧
      (Scenario.E1 ∈ (idx1.preCommit Scenario.T2).lookupFrom (Scenario.reader 15) 1 ∧
        Scenario.E1 ∈ (idx1.preCommit Scenario.T2).lookupTo (Scenario.reader 15) 2) ∧
      (Scenario.E1 ∈ (runIndexOps (idx1.preCommit Scenario.T2)
          [.sizeHint 8, .insert (Scenario.reader 50) Scenario.E2,
            .preCommit (Scenario.reader 50),
            .forget (Scenario.reader 60) Scenario.E2]).lookupFrom (Scenario.reader 15) 1 ∧
        Scenario.E1 ∈ (runIndexOps (idx1.preCommit Scenario.T2)
          [.sizeHint 8, .insert (Scenario.reader 50) Scenario.E2,
            .preCommit (Scenario.reader 50),
            .forget (Scenario.reader 60) Scenario.E2]).lookupTo (Scenario.reader 15) 2) := by
  refine ⟨Scenario.afterCommit_committedFor, ?_⟩
  obtain ⟨idx1, hrem, hafter, hstill, hlater⟩ :=
    tombstone_correctness Scenario.afterCommit Scenario.T2 Scenario.E1
      Scenario.afterCommit_committedFor
  have hops : ∀ txn, IndexOp.forget txn Scenario.E1 ∉
      [IndexOp.sizeHint 8, .insert (Scenario.reader 50) Scenario.E2,
        .preCommit (Scenario.reader 50), .forget (Scenario.reader 60) Scenario.E2] := by
    intro txn hmem
    simp only [List.mem_cons, List.mem_singleton, List.not_mem_nil, or_false] at hmem
    rcases hmem with hmem | hmem | hmem | hmem
    · cases hmem
    · cases hmem
    · cases hmem
    · injection hmem with _ hdoc
      exact absurd hdoc (by decide)
  refine ⟨idx1, hrem, ?_, ?_, ?_⟩
  · exact ⟨(hafter (Scenario.reader 40) 1 (by decide)).1,
      (hafter (Scenario.reader 40) 2 (by decide)).2⟩
  · exact ⟨(hstill (Scenario.reader 15) 1 (by decide)).1 (by decide),
      (hstill (Scenario.reader 15) 2 (by decide)).2 (by decide)⟩
  · exact ⟨(hlater (Scenario.reader 15) 1 _ (by decide) hops).1 (by decide),
      (hlater (Scenario.reader 15) 2 _ (by decide) hops).2 (by decide)⟩

/-! ## Bidirectional consistency (C3) -/

theorem Tag.commit_isLive (txn : TransactionCollection) (t : Tag) :
    (t.commit txn).isLive = t.isLive := by
  cases t with
  | pending o => by_cases h : o = txn.id <;> simp [Tag.commit, Tag.isLive, h]
  | committed c => rfl
  | tombstonePending o ins => by_cases h : o = txn.id <;> simp [Tag.commit, Tag.isLive, h]
  | tombstoneCommitted c r => rfl

theorem markRemoved_of_live (txn : TransactionCollection) (doc : EdgeDocumentRef)
    (e : IndexEntry) (h : (markRemoved txn doc e).tag.isLive = true) :
    removable txn doc e = false ∧ markRemoved txn doc e = e := by
  unfold markRemoved at h ⊢
  by_cases hr : removable txn doc e = true
  · rw [if_pos hr] at h
    obtain ⟨k, d, t⟩ := e
    cases t <;> simp [removable, Tag.isLive, Tag.tombstoneBy] at hr h
  · simp only [Bool.not_eq_true] at hr
    simp [hr]

theorem removable_rekey (txn : TransactionCollection) (doc : EdgeDocumentRef)
    (e : IndexEntry) (k : VertexId) :
    removable txn doc ⟨k, e.doc, e.tag⟩ = removable txn doc e := rfl

theorem forgettable_rekey (txn : TransactionCollection) (doc : EdgeDocumentRef)
    (e : IndexEntry) (k : VertexId) :
    forgettable txn doc ⟨k, e.doc, e.tag⟩ = forgettable txn doc e := rfl

namespace EdgeIndex

theorem consistent_create (id : Nat) : (create id).Consistent where
  fromHashed := HashMultimap.empty_wellHashed 1
  toHashed := HashMultimap.empty_wellHashed 1
  fromKey := by intro e he; simp [create, HashMultimap.empty_entries] at he
  toKey := by intro e he; simp [create, HashMultimap.empty_entries] at he
  fromTo := by intro e he; simp [create, HashMultimap.empty_entries] at he
  toFrom := by intro e he; simp [create, HashMultimap.empty_entries] at he

theorem consistent_insert (idx : EdgeIndex) (h : idx.Consistent) (txn : TransactionCollection)
    (doc : EdgeDocumentRef) : (idx.insert txn doc).Consistent where
  fromHashed := HashMultimap.insert_wellHashed _ _ h.fromHashed
  toHashed := HashMultimap.insert_wellHashed _ _ h.toHashed
  fromKey := by
    intro e he
    rcases (HashMultimap.mem_insert_entries _ _ _).mp he with rfl | he
    · rfl
    · exact h.fromKey e he
  toKey := by
    intro e he
    rcases (HashMultimap.mem_insert_entries _ _ _).mp he with rfl | he
    · rfl
    · exact h.toKey e he
  fromTo := by
    intro e he hl
    apply (HashMultimap.mem_insert_entries _ _ _).mpr
    rcases (HashMultimap.mem_insert_entries _ _ _).mp he with rfl | he
    · exact Or.inl rfl
    · exact Or.inr (h.fromTo e he hl)
  toFrom := by
    intro e he hl
    apply (HashMultimap.mem_insert_entries _ _ _).mpr
    rcases (HashMultimap.mem_insert_entries _ _ _).mp he with rfl | he
    · exact Or.inl rfl
    · exact Or.inr (h.toFrom e he hl)

theorem consistent_removed (idx : EdgeIndex) (h : idx.Consistent) (txn : TransactionCollection)
    (doc : EdgeDocumentRef) : (idx.removed txn doc).Consistent where
  fromHashed := HashMultimap.mapEntries_wellHashed _ (markRemoved_key txn doc) _ h.fromHashed
  toHashed := HashMultimap.mapEntries_wellHashed _ (markRemoved_key txn doc) _ h.toHashed
  fromKey := by
    intro e he
    simp only [removed, HashMultimap.mapEntries_entries, List.mem_map] at he
    obtain ⟨e0, he0, rfl⟩ := he
    rw [markRemoved_key, markRemoved_doc]; exact h.fromKey e0 he0
  toKey := by
    intro e he
    simp only [removed, HashMultimap.mapEntries_entries, List.mem_map] at he
    obtain ⟨e0, he0, rfl⟩ := he
    rw [markRemoved_key, markRemoved_doc]; exact h.toKey e0 he0
  fromTo := by
    intro e he hl
    simp only [removed, HashMultimap.mapEntries_entries, List.mem_map] at he ⊢
    obtain ⟨e0, he0, rfl⟩ := he
    obtain ⟨hnr, heq⟩ := markRemoved_of_live txn doc e0 hl
    rw [heq] at hl ⊢
    refine ⟨_, h.fromTo e0 he0 hl, ?_⟩
    unfold markRemoved
    rw [removable_rekey, hnr]
    simp
  toFrom := by
    intro e he hl
    simp only [removed, HashMultimap.mapEntries_entries, List.mem_map] at he ⊢
    obtain ⟨e0, he0, rfl⟩ := he
    obtain ⟨hnr, heq⟩ := markRemoved_of_live txn doc e0 hl
    rw [heq] at hl ⊢
    refine ⟨_, h.toFrom e0 he0 hl, ?_⟩
    unfold markRemoved
    rw [removable_rekey, hnr]
    simp

theorem consistent_preCommit (idx : EdgeIndex) (h : idx.Consistent)
    (txn : TransactionCollection) : (idx.preCommit txn).Consistent where
  fromHashed := HashMultimap.mapEntries_wellHashed _ (commitEntry_key txn) _ h.fromHashed
  toHashed := HashMultimap.mapEntries_wellHashed _ (commitEntry_key txn) _ h.toHashed
  fromKey := by
    intro e he
    simp only [preCommit, HashMultimap.mapEntries_entries, List.mem_map] at he
    obtain ⟨e0, he0, rfl⟩ := he
    exact h.fromKey e0 he0
  toKey := by
    intro e he
    simp only [preCommit, HashMultimap.mapEntries_entries, List.mem_map] at he
    obtain ⟨e0, he0, rfl⟩ := he
    exact h.toKey e0 he0
  fromTo := by
    intro e he hl
    simp only [preCommit, HashMultimap.mapEntries_entries, List.mem_map] at he ⊢
    obtain ⟨e0, he0, rfl⟩ := he
    have hl0 : e0.tag.isLive = true := by
      have := Tag.commit_isLive txn e0.tag
      simp only [commitEntry] at hl
      rw [this] at hl; exact hl
    exact ⟨_, h.fromTo e0 he0 hl0, rfl⟩
  toFrom := by
    intro e he hl
    simp only [preCommit, HashMultimap.mapEntries_entries, List.mem_map] at he ⊢
    obtain ⟨e0, he0, rfl⟩ := he
    have hl0 : e0.tag.isLive = true := by
      have := Tag.commit_isLive txn e0.tag
      simp only [commitEntry] at hl
      rw [this] at hl; exact hl
    exact ⟨_, h.toFrom e0 he0 hl0, rfl⟩

theorem forget_ok (idx idx1 : EdgeIndex) (txn : TransactionCollection) (doc : EdgeDocumentRef)
    (h : idx.forget txn doc = .ok idx1) : idx1 = idx.forgotten txn doc := by
  unfold forget at h
  split at h
  · cases h
  · injection h with h; exact h.symm

theorem remove_ok (idx idx1 : EdgeIndex) (txn : TransactionCollection) (doc : EdgeDocumentRef)
    (h : idx.remove txn doc = .ok idx1) : idx1 = idx.removed txn doc := by
  rw [remove_eq] at h
  split at h
  · injection h with h; exact h.symm
  · cases h

theorem consistent_forgotten (idx : EdgeIndex) (h : idx.Consistent)
    (txn : TransactionCollection) (doc : EdgeDocumentRef) :
    (idx.forgotten txn doc).Consistent where
  fromHashed := HashMultimap.eraseEntries_wellHashed _ _ h.fromHashed
  toHashed := HashMultimap.eraseEntries_wellHashed _ _ h.toHashed
  fromKey := by
    intro e he
    simp only [forgotten, HashMultimap.eraseEntries_entries, List.mem_filter] at he
    exact h.fromKey e he.1
  toKey := by
    intro e he
    simp only [forgotten, HashMultimap.eraseEntries_entries, List.mem_filter] at he
    exact h.toKey e he.1
  fromTo := by
    intro e he hl
    simp only [forgotten, HashMultimap.eraseEntries_entries, List.mem_filter] at he ⊢
    exact ⟨h.fromTo e he.1 hl, by rw [forgettable_rekey]; exact he.2⟩
  toFrom := by
    intro e he hl
    simp only [forgotten, HashMultimap.eraseEntries_entries, List.mem_filter] at he ⊢
    exact ⟨h.toFrom e he.1 hl, by rw [forgettable_rekey]; exact he.2⟩

theorem consistent_sizeHint (idx : EdgeIndex) (h : idx.Consistent) (n : Nat) :
    (idx.sizeHint n).Consistent where
  fromHashed := HashMultimap.sizeHint_wellHashed _ _ h.fromHashed
  toHashed := HashMultimap.sizeHint_wellHashed _ _ h.toHashed
  fromKey := by
    intro e he
    exact h.fromKey e ((HashMultimap.sizeHint_entries_perm n idx._from).mem_iff.mp he)
  toKey := by
    intro e he
    exact h.toKey e ((HashMultimap.sizeHint_entries_perm n idx._to).mem_iff.mp he)
  fromTo := by
    intro e he hl
    exact (HashMultimap.sizeHint_entries_perm n idx._to).mem_iff.mpr
      (h.fromTo e ((HashMultimap.sizeHint_entries_perm n idx._from).mem_iff.mp he) hl)
  toFrom := by
    intro e he hl
    exact (HashMultimap.sizeHint_entries_perm n idx._from).mem_iff.mpr
      (h.toFrom e ((HashMultimap.sizeHint_entries_perm n idx._to).mem_iff.mp he) hl)

/-- In a consistent index a committed entry of a document in either map is found
by both lookups. -/
theorem consistent_lookup (idx : EdgeIndex) (h : idx.Consistent) (doc : EdgeDocumentRef)
    (c : Nat)
    (hc : ∃ e ∈ idx._from.entries ++ idx._to.entries, e.doc = doc ∧ e.tag = .committed c) :
    (⟨doc.fromVertex, doc, .committed c⟩ : IndexEntry) ∈ idx._from.lookup doc.fromVertex ∧
    (⟨doc.toVertex, doc, .committed c⟩ : IndexEntry) ∈ idx._to.lookup doc.toVertex := by
  have hboth : (⟨doc.fromVertex, doc, .committed c⟩ : IndexEntry) ∈ idx._from.entries ∧
      (⟨doc.toVertex, doc, .committed c⟩ : IndexEntry) ∈ idx._to.entries := by
    obtain ⟨e, he, hd, htag⟩ := hc
    obtain ⟨k, d, t⟩ := e
    simp only at hd htag
    subst hd htag
    rcases List.mem_append.mp he with he | he
    · have hk := h.fromKey _ he
      simp only at hk
      subst hk
      exact ⟨he, h.fromTo _ he rfl⟩
    · have hk := h.toKey _ he
      simp only at hk
      subst hk
      exact ⟨h.toFrom _ he rfl, he⟩
  exact ⟨HashMultimap.mem_lookup_of_wellHashed _ h.fromHashed _ hboth.1,
    HashMultimap.mem_lookup_of_wellHashed _ h.toHashed _ hboth.2⟩

end EdgeIndex

/-- C3: bidirectional consistency holds in a new index and is kept by `insert`,
by a successful `remove`, by a successful `forget`, by `preCommit` and by
`sizeHint` (a failing `remove` or `forget` produces no new state); and in a
consistent index a document with a committed, non-tombstoned entry in either map
is yielded by the from lookup under its `fromVertex` and by the to lookup under
its `toVertex`, for every reader that started after the commit. -/
theorem bidirectional_consistency :
    (∀ id, (EdgeIndex.create id).Consistent) ∧
    ∀ idx : EdgeIndex, idx.Consistent →
      (∀ txn doc, (idx.insert txn doc).Consistent) ∧
      (∀ txn doc idx1, idx.remove txn doc = .ok idx1 → idx1.Consistent) ∧
      (∀ txn doc idx1, idx.forget txn doc = .ok idx1 → idx1.Consistent) ∧
      (∀ txn, (idx.preCommit txn).Consistent) ∧
      (∀ n, (idx.sizeHint n).Consistent) ∧
      (∀ (doc : EdgeDocumentRef) (c : Nat),
        (∃ e ∈ idx._from.entries ++ idx._to.entries, e.doc = doc ∧ e.tag = .committed c) →
        ((⟨doc.fromVertex, doc, .committed c⟩ : IndexEntry) ∈ idx._from.lookup doc.fromVertex ∧
          (⟨doc.toVertex, doc, .committed c⟩ : IndexEntry) ∈ idx._to.lookup doc.toVertex) ∧
        ∀ r : TransactionCollection, c < r.startSeq →
          doc ∈ idx.lookupFrom r doc.fromVertex ∧ doc ∈ idx.lookupTo r doc.toVertex) := by
  refine ⟨EdgeIndex.consistent_create, fun idx h => ⟨?_, ?_, ?_, ?_, ?_, ?_⟩⟩
  · exact fun txn doc => EdgeIndex.consistent_insert idx h txn doc
  · intro txn doc idx1 hok
    rw [EdgeIndex.remove_ok idx idx1 txn doc hok]
    exact EdgeIndex.consistent_removed idx h txn doc
  · intro txn doc idx1 hok
    rw [EdgeIndex.forget_ok idx idx1 txn doc hok]
    exact EdgeIndex.consistent_forgotten idx h txn doc
  · exact fun txn => EdgeIndex.consistent_preCommit idx h txn
  · exact fun n => EdgeIndex.consistent_sizeHint idx h n
  · intro doc c hc
    have hl := EdgeIndex.consistent_lookup idx h doc c hc
    refine ⟨hl, fun r hr => ⟨?_, ?_⟩⟩
    · refine List.mem_map.mpr ⟨_, List.mem_filter.mpr ⟨hl.1, ?_⟩, rfl⟩
      simp [IndexEntry.visibleTo, Tag.visibleTo, hr]
    · refine List.mem_map.mpr ⟨_, List.mem_filter.mpr ⟨hl.2, ?_⟩, rfl⟩
      simp [IndexEntry.visibleTo, Tag.visibleTo, hr]

/-- C3 witness: the index of the concrete scenario after `preCommit(T1)` is
consistent, stays so under a size hint of 8, and there the reader with sequence
number 20 finds `E1` from vertex 1 and to vertex 2. -/
theorem bidirectional_consistency_witness :
    Scenario.afterCommit.Consistent ∧ (Scenario.afterCommit.sizeHint 8).Consistent ∧
    Scenario.E1 ∈ Scenario.afterCommit.lookupFrom (Scenario.reader 20) 1 ∧
    Scenario.E1 ∈ Scenario.afterCommit.lookupTo (Scenario.reader 20) 2 := by
  have h0 := bidirectional_consistency.1 0
  have h1 := (bidirectional_consistency.2 (EdgeIndex.create 0) h0).1 Scenario.T1 Scenario.E1
  have h2 : Scenario.afterCommit.Consistent :=
    (bidirectional_consistency.2 _ h1).2.2.2.1 Scenario.T1
  have h3 := bidirectional_consistency.2 Scenario.afterCommit h2
  refine ⟨h2, h3.2.2.2.2.1 8, ?_⟩
  exact (h3.2.2.2.2.2 Scenario.E1 11
    ⟨⟨1, Scenario.E1, .committed 11⟩, by decide, rfl, rfl⟩).2 (Scenario.reader 20) (by decide)

/-! ## Frame of `preCommit` (C4) -/

/-- C4: `preCommit(txn)` keeps the bucket arrays of both maps in shape (same
number of buckets, same number of entries, every chain position by position) and
rewrites each stored entry by `commitEntry txn`, which keeps key and document,
turns the tag pending(txn) into committed (at the commit sequence number of
`txn`), turns tombstone-pending(txn) into tombstone-committed, and leaves every
entry with another tag exactly as it is. -/
theorem preCommit_frame (idx : EdgeIndex) (txn : TransactionCollection) :
    ((∀ i, bucketAt i (idx.preCommit txn)._from.buckets =
        (bucketAt i idx._from.buckets).map (commitEntry txn)) ∧
      (∀ i, bucketAt i (idx.preCommit txn)._to.buckets =
        (bucketAt i idx._to.buckets).map (commitEntry txn))) ∧
    ((idx.preCommit txn)._from.nrAlloc = idx._from.nrAlloc ∧
      (idx.preCommit txn)._to.nrAlloc = idx._to.nrAlloc ∧
      (idx.preCommit txn)._from.size = idx._from.size ∧
      (idx.preCommit txn)._to.size = idx._to.size ∧
      (idx.preCommit txn).id = idx.id) ∧
    ∀ e : IndexEntry,
      (commitEntry txn e).key = e.key ∧ (commitEntry txn e).doc = e.doc ∧
      (e.tag = .pending txn.id → (commitEntry txn e).tag = .committed txn.commitSeq) ∧
      (∀ ins, e.tag = .tombstonePending txn.id ins →
        (commitEntry txn e).tag =
          .tombstoneCommitted (ins.getD txn.commitSeq) txn.commitSeq) ∧
      (e.tag ≠ .pending txn.id → (∀ ins, e.tag ≠ .tombstonePending txn.id ins) →
        commitEntry txn e = e) := by
  refine ⟨⟨fun i => HashMultimap.bucketAt_mapEntries _ _ i,
      fun i => HashMultimap.bucketAt_mapEntries _ _ i⟩,
    ⟨HashMultimap.mapEntries_buckets_length _ _, HashMultimap.mapEntries_buckets_length _ _,
      HashMultimap.mapEntries_size _ _, HashMultimap.mapEntries_size _ _, rfl⟩, ?_⟩
  intro e
  obtain ⟨k, d, t⟩ := e
  refine ⟨rfl, rfl, ?_, ?_, ?_⟩
  · intro h
    simp only at h
    subst h
    simp [commitEntry, Tag.commit]
  · intro ins h
    simp only at h
    subst h
    simp [commitEntry, Tag.commit]
  · intro h1 h2
    simp only [ne_eq] at h1 h2
    cases t with
    | pending o =>
      have ho : ¬ o = txn.id := fun h => h1 (by rw [h])
      simp [commitEntry, Tag.commit, ho]
    | committed c => rfl
    | tombstonePending o ins =>
      have ho : ¬ o = txn.id := fun h => h2 ins (by rw [h])
      simp [commitEntry, Tag.commit, ho]
    | tombstoneCommitted c r => rfl

/-- C4 witness: in the concrete scenario `preCommit(T2)` turns the entry of `E1`
that `T2` tombstoned into a committed tombstone, and `preCommit` by the reader
with sequence number 5 leaves that pending tombstone alone. -/
theorem preCommit_frame_witness :
    (commitEntry Scenario.T2 ⟨1, Scenario.E1, .tombstonePending 30 (some 11)⟩).tag =
        .tombstoneCommitted 11 31 ∧
    commitEntry (Scenario.reader 5) ⟨1, Scenario.E1, .tombstonePending 30 (some 11)⟩ =
        ⟨1, Scenario.E1, .tombstonePending 30 (some 11)⟩ := by
  constructor
  · exact ((preCommit_frame Scenario.afterRemove Scenario.T2).2.2
      ⟨1, Scenario.E1, .tombstonePending 30 (some 11)⟩).2.2.2.1 (some 11) rfl
  · exact ((preCommit_frame Scenario.afterRemove (Scenario.reader 5)).2.2
      ⟨1, Scenario.E1, .tombstonePending 30 (some 11)⟩).2.2.2.2 (by decide)
        (fun ins => by simp [Scenario.reader])

/-! ## Idempotence of `forget` (C5) -/

theorem any_entryOf_false (doc : EdgeDocumentRef) (l : List IndexEntry)
    (h : ∀ e ∈ l, e.doc ≠ doc) : l.any (entryOf doc) = false := by
  rw [List.any_eq_false]
  intro e he
  simp [entryOf, h e he]

/-- C5: when the document has no entry in either map, `forget(txn, doc)`
succeeds and returns the index unchanged; hence two `forget` calls in a row
(by the same or by different collector passes) succeed and leave the index
unchanged. -/
theorem forget_absent (idx : EdgeIndex) (doc : EdgeDocumentRef)
    (h : ∀ e ∈ idx._from.entries ++ idx._to.entries, e.doc ≠ doc) :
    (∀ txn, idx.forget txn doc = .ok idx) ∧
    ∀ txn1 txn2, (idx.forget txn1 doc).bind (fun idx1 => idx1.forget txn2 doc) = .ok idx := by
  have hf := any_entryOf_false doc idx._from.entries
    (fun e he => h e (List.mem_append_left _ he))
  have ht := any_entryOf_false doc idx._to.entries
    (fun e he => h e (List.mem_append_right _ he))
  have h1 : ∀ txn, idx.forget txn doc = .ok idx := by
    intro txn
    have hef : idx._from.eraseEntries (forgettable txn doc) = idx._from :=
      HashMultimap.eraseEntries_of_none _ _ (fun e he => by
        simp [forgettable, h e (List.mem_append_left _ he)])
    have het : idx._to.eraseEntries (forgettable txn doc) = idx._to :=
      HashMultimap.eraseEntries_of_none _ _ (fun e he => by
        simp [forgettable, h e (List.mem_append_right _ he)])
    simp only [EdgeIndex.forget, hf, ht, hef, het]
    rfl
  refine ⟨h1, fun txn1 txn2 => ?_⟩
  rw [h1 txn1]
  exact h1 txn2

/-- C5 witness: in the concrete scenario the garbage collector (sequence number
50) forgets `E1` after its removal committed, which erases both entries; a
second and a third `forget` of `E1` succeed and change nothing. -/
theorem forget_absent_witness :
    Scenario.afterRemoveCommit.forget (Scenario.reader 50) Scenario.E1 =
        .ok (EdgeIndex.create 0) ∧
    (∀ e ∈ (EdgeIndex.create 0)._from.entries ++ (EdgeIndex.create 0)._to.entries,
        e.doc ≠ Scenario.E1) ∧
    (EdgeIndex.create 0).forget (Scenario.reader 50) Scenario.E1 = .ok (EdgeIndex.create 0) ∧
    ((EdgeIndex.create 0).forget (Scenario.reader 50) Scenario.E1).bind
        (fun idx1 => idx1.forget (Scenario.reader 60) Scenario.E1) =
      .ok (EdgeIndex.create 0) := by
  have hno : ∀ e ∈ (EdgeIndex.create 0)._from.entries ++ (EdgeIndex.create 0)._to.entries,
      e.doc ≠ Scenario.E1 := by
    intro e he
    have hnil : (EdgeIndex.create 0)._from.entries ++ (EdgeIndex.create 0)._to.entries = [] := by
      decide
    rw [hnil] at he
    cases he
  have h := forget_absent (EdgeIndex.create 0) Scenario.E1 hno
  exact ⟨rfl, hno, h.1 _, h.2 _ _⟩

/-! ## `remove` and `NotFound` (C6) -/

/-- The entries `remove` acts on, spelled out. -/
theorem removable_iff (txn : TransactionCollection) (doc : EdgeDocumentRef) (e : IndexEntry) :
    removable txn doc e = true ↔
      e.doc = doc ∧ ((∃ c, e.tag = .committed c ∧ c < txn.startSeq) ∨ e.tag = .pending txn.id) := by
  obtain ⟨k, d, t⟩ := e
  cases t <;> simp [removable, Tag.isLive, Tag.visibleTo]

/-- C6: `remove(txn, doc)` fails, with `NotFound` and no other error, exactly
when neither map holds a live entry of `doc` visible to `txn` (committed before
`txn` started, or pending and owned by `txn`).  When it succeeds it keeps the
bucket arrays of both maps in shape (same buckets, same number of stored
entries, nothing erased), rewrites each chain by `markRemoved`, which marks the
matching live entries tombstone-pending(txn) and leaves the others as they are. -/
theorem remove_notFound_iff (idx : EdgeIndex) (txn : TransactionCollection)
    (doc : EdgeDocumentRef) :
    (idx.remove txn doc = .error .NotFound ↔
      ¬ ∃ e ∈ idx._from.entries ++ idx._to.entries, e.doc = doc ∧
        ((∃ c, e.tag = .committed c ∧ c < txn.startSeq) ∨ e.tag = .pending txn.id)) ∧
    (∀ err, idx.remove txn doc = .error err → err = .NotFound) ∧
    (∀ idx1, idx.remove txn doc = .ok idx1 →
      ((∀ i, bucketAt i idx1._from.buckets =
          (bucketAt i idx._from.buckets).map (markRemoved txn doc)) ∧
        (∀ i, bucketAt i idx1._to.buckets =
          (bucketAt i idx._to.buckets).map (markRemoved txn doc))) ∧
      (idx1._from.size = idx._from.size ∧ idx1._to.size = idx._to.size ∧
        idx1._from.nrAlloc = idx._from.nrAlloc ∧ idx1._to.nrAlloc = idx._to.nrAlloc) ∧
      ∀ e : IndexEntry,
        (e.doc = doc → e.tag = .pending txn.id →
          markRemoved txn doc e = ⟨e.key, e.doc, .tombstonePending txn.id none⟩) ∧
        (∀ c, e.doc = doc → e.tag = .committed c → c < txn.startSeq →
          markRemoved txn doc e = ⟨e.key, e.doc, .tombstonePending txn.id (some c)⟩) ∧
        (¬ (e.doc = doc ∧
            ((∃ c, e.tag = .committed c ∧ c < txn.startSeq) ∨ e.tag = .pending txn.id)) →
          markRemoved txn doc e = e)) := by
  have hany : (idx._from.entries ++ idx._to.entries).any (removable txn doc) = true ↔
      ∃ e ∈ idx._from.entries ++ idx._to.entries, e.doc = doc ∧
        ((∃ c, e.tag = .committed c ∧ c < txn.startSeq) ∨ e.tag = .pending txn.id) := by
    rw [List.any_eq_true]
    constructor
    · rintro ⟨e, he, hr⟩; exact ⟨e, he, (removable_iff txn doc e).mp hr⟩
    · rintro ⟨e, he, hr⟩; exact ⟨e, he, (removable_iff txn doc e).mpr hr⟩
  refine ⟨?_, ?_, ?_⟩
  · rw [EdgeIndex.remove_eq, ← hany]
    split <;> simp_all
  · intro err herr
    rw [EdgeIndex.remove_eq] at herr
    split at herr
    · cases herr
    · injection herr with herr; exact herr.symm
  · intro idx1 hok
    rw [EdgeIndex.remove_ok idx idx1 txn doc hok]
    refine ⟨⟨fun i => HashMultimap.bucketAt_mapEntries _ _ i,
        fun i => HashMultimap.bucketAt_mapEntries _ _ i⟩,
      ⟨HashMultimap.mapEntries_size _ _, HashMultimap.mapEntries_size _ _,
        HashMultimap.mapEntries_buckets_length _ _,
        HashMultimap.mapEntries_buckets_length _ _⟩, ?_⟩
    intro e
    obtain ⟨k, d, t⟩ := e
    refine ⟨?_, ?_, ?_⟩
    · intro hd ht
      simp only at hd ht
      subst hd ht
      simp [markRemoved, removable, Tag.isLive, Tag.visibleTo, Tag.tombstoneBy]
    · intro c hd ht hc
      simp only at hd ht
      subst hd ht
      simp [markRemoved, removable, Tag.isLive, Tag.visibleTo, Tag.tombstoneBy, hc]
    · intro hnot
      have hr : ¬ removable txn doc ⟨k, d, t⟩ = true := fun h =>
        hnot ((removable_iff txn doc _).mp h)
      simp [markRemoved, hr]

/-- C6 witness: in the concrete scenario `remove(T2, E1)` succeeds on the index
that holds `E1` committed at 11, and fails with `NotFound` for the reader with
sequence number 5, which started before that commit and so sees no live entry
of `E1`. -/
theorem remove_notFound_iff_witness :
    Scenario.afterCommit.remove Scenario.T2 Scenario.E1 = .ok Scenario.afterRemove ∧
    Scenario.afterRemove._from.size = Scenario.afterCommit._from.size ∧
    Scenario.afterCommit.remove (Scenario.reader 5) Scenario.E1 = .error .NotFound := by
  have hok : Scenario.afterCommit.remove Scenario.T2 Scenario.E1 = .ok Scenario.afterRemove :=
    rfl
  refine ⟨hok, ?_, ?_⟩
  · exact ((remove_notFound_iff Scenario.afterCommit Scenario.T2 Scenario.E1).2.2
      Scenario.afterRemove hok).2.1.1
  · apply (remove_notFound_iff Scenario.afterCommit (Scenario.reader 5) Scenario.E1).1.mpr
    have hes : Scenario.afterCommit._from.entries ++ Scenario.afterCommit._to.entries =
        [⟨1, Scenario.E1, .committed 11⟩, ⟨2, Scenario.E1, .committed 11⟩] := by decide
    rw [hes]
    simp [Scenario.reader]

/-! ## Resize preservation (C7) -/

theorem EdgeIndex.sizeHint_entries (idx : EdgeIndex) (n : Nat) :
    ((idx.sizeHint n)._from.entries : Multiset IndexEntry) = idx._from.entries ∧
    ((idx.sizeHint n)._to.entries : Multiset IndexEntry) = idx._to.entries :=
  ⟨Multiset.coe_eq_coe.mpr (HashMultimap.sizeHint_entries_perm n idx._from),
    Multiset.coe_eq_coe.mpr (HashMultimap.sizeHint_entries_perm n idx._to)⟩

/-- C7: `sizeHint(n)` leaves the multiset of (key, document, tag) entries of the
from map and of the to map as it was, for every `n`; so does every sequence of
`sizeHint` calls, and so does a resize to any number of buckets, which is what a
hint may trigger. -/
theorem sizeHint_preserves_entries (idx : EdgeIndex) :
    (∀ n, ((idx.sizeHint n)._from.entries : Multiset IndexEntry) = idx._from.entries ∧
      ((idx.sizeHint n)._to.entries : Multiset IndexEntry) = idx._to.entries) ∧
    (∀ ns : List Nat,
      ((ns.foldl EdgeIndex.sizeHint idx)._from.entries : Multiset IndexEntry) =
          idx._from.entries ∧
      ((ns.foldl EdgeIndex.sizeHint idx)._to.entries : Multiset IndexEntry) =
          idx._to.entries) ∧
    (∀ n, ((idx._from.resize n).entries : Multiset IndexEntry) = idx._from.entries ∧
      ((idx._to.resize n).entries : Multiset IndexEntry) = idx._to.entries) := by
  refine ⟨EdgeIndex.sizeHint_entries idx, ?_, fun n =>
    ⟨Multiset.coe_eq_coe.mpr (HashMultimap.resize_entries_perm n idx._from),
      Multiset.coe_eq_coe.mpr (HashMultimap.resize_entries_perm n idx._to)⟩⟩
  intro ns
  induction ns generalizing idx with
  | nil => exact ⟨rfl, rfl⟩
  | cons n ns ih =>
    simp only [List.foldl_cons]
    have h1 := ih (idx.sizeHint n)
    have h2 := EdgeIndex.sizeHint_entries idx n
    exact ⟨h1.1.trans h2.1, h1.2.trans h2.2⟩

/-! ## Effect of `insert` (C8) -/

/-- C8: `insert(txn, doc)` adds exactly one entry, tagged pending(txn), under
key `fromVertex` to the from map and exactly one under key `toVertex` to the to
map: the multiset of stored entries of each map grows by that entry and nothing
else, and each lookup finds it in front of what it found before.  With a
positive per-entry overhead the value of `memory()` is larger after the call,
by exactly two slots when both bucket arrays are allocated. -/
theorem insert_effect (idx : EdgeIndex) (txn : TransactionCollection) (doc : EdgeDocumentRef)
    (bucketBytes slotBytes : Nat) (hslot : 0 < slotBytes) :
    (((idx.insert txn doc)._from.entries : Multiset IndexEntry) =
        (⟨doc.fromVertex, doc, .pending txn.id⟩ : IndexEntry) ::ₘ
          (idx._from.entries : Multiset IndexEntry) ∧
      ((idx.insert txn doc)._to.entries : Multiset IndexEntry) =
        (⟨doc.toVertex, doc, .pending txn.id⟩ : IndexEntry) ::ₘ
          (idx._to.entries : Multiset IndexEntry)) ∧
    ((∀ v, (idx.insert txn doc)._from.lookup v =
        if doc.fromVertex = v then ⟨doc.fromVertex, doc, .pending txn.id⟩ :: idx._from.lookup v
        else idx._from.lookup v) ∧
      (∀ v, (idx.insert txn doc)._to.lookup v =
        if doc.toVertex = v then ⟨doc.toVertex, doc, .pending txn.id⟩ :: idx._to.lookup v
        else idx._to.lookup v)) ∧
    (idx.memory bucketBytes slotBytes < (idx.insert txn doc).memory bucketBytes slotBytes ∧
      (idx._from.buckets ≠ [] → idx._to.buckets ≠ [] →
        (idx.insert txn doc).memory bucketBytes slotBytes =
          idx.memory bucketBytes slotBytes + 2 * slotBytes)) := by
  refine ⟨⟨?_, ?_⟩, ⟨fun v => HashMultimap.lookup_insert _ _ v,
    fun v => HashMultimap.lookup_insert _ _ v⟩, ?_, ?_⟩
  · rw [Multiset.cons_coe]
    exact Multiset.coe_eq_coe.mpr (HashMultimap.insert_entries_perm _ _)
  · rw [Multiset.cons_coe]
    exact Multiset.coe_eq_coe.mpr (HashMultimap.insert_entries_perm _ _)
  · have hf := HashMultimap.insert_buckets_length idx._from ⟨doc.fromVertex, doc, .pending txn.id⟩
    have ht := HashMultimap.insert_buckets_length idx._to ⟨doc.toVertex, doc, .pending txn.id⟩
    have hf2 : idx._from.buckets.length ≤
        (idx._from.insert ⟨doc.fromVertex, doc, .pending txn.id⟩).buckets.length := by
      rw [hf]; split
      · next h => simp [h]
      · exact Nat.le_refl _
    have ht2 : idx._to.buckets.length ≤
        (idx._to.insert ⟨doc.toVertex, doc, .pending txn.id⟩).buckets.length := by
      rw [ht]; split
      · next h => simp [h]
      · exact Nat.le_refl _
    simp only [EdgeIndex.memory, EdgeIndex.insert, HashMultimap.insert_size,
      HashMultimap.nrAlloc]
    have hb : bucketBytes * (idx._from.buckets.length + idx._to.buckets.length) ≤
        bucketBytes *
          ((idx._from.insert ⟨doc.fromVertex, doc, .pending txn.id⟩).buckets.length +
            (idx._to.insert ⟨doc.toVertex, doc, .pending txn.id⟩).buckets.length) :=
      Nat.mul_le_mul_left _ (Nat.add_le_add hf2 ht2)
    have hsl : slotBytes * (idx._from.size + idx._to.size) <
        slotBytes * (idx._from.size + 1 + (idx._to.size + 1)) :=
      Nat.mul_lt_mul_of_pos_left (by omega) hslot
    omega
  · intro hf ht
    simp only [EdgeIndex.memory, EdgeIndex.insert, HashMultimap.insert_size,
      HashMultimap.nrAlloc, HashMultimap.insert_buckets_length, hf, ht, if_false]
    ring

/-- C8 witness: inserting `E1` under `T1` into the new index, with 8 bytes per
bucket and 16 bytes per slot, raises `memory()` from 16 to 48. -/
theorem insert_effect_witness :
    (0 < 16) ∧
    (EdgeIndex.create 0).memory 8 16 = 16 ∧ Scenario.afterInsert.memory 8 16 = 48 ∧
    (EdgeIndex.create 0).memory 8 16 < Scenario.afterInsert.memory 8 16 ∧
    Scenario.afterInsert._from.lookup 1 = [⟨1, Scenario.E1, .pending 10⟩] := by
  have h := insert_effect (EdgeIndex.create 0) Scenario.T1 Scenario.E1 8 16 (by decide)
  refine ⟨by decide, by decide, by decide, h.2.2.1, ?_⟩
  exact (h.2.1.1 1).trans (by decide)

end mvcc
end triagens

namespace triagens
namespace basics

/-! ## Call counts -/

theorem lockCalls_issue (cond : Nat) (p : Platform) (c : PrimitiveCall) :
    lockCalls cond (p.issue c) =
      lockCalls cond p + if c = .TRI_LockCondition cond then 1 else 0 := by
  simp only [lockCalls, Platform.issue, List.count_append, List.count_singleton, beq_iff_eq]

theorem unlockCalls_issue (cond : Nat) (p : Platform) (c : PrimitiveCall) :
    unlockCalls cond (p.issue c) =
      unlockCalls cond p + if c = .TRI_UnlockCondition cond then 1 else 0 := by
  simp only [unlockCalls, Platform.issue, List.count_append, List.count_singleton, beq_iff_eq]

theorem lockCalls_lock (cv : ConditionVariable) (p : Platform) :
    lockCalls cv._condition (cv.lock p) = lockCalls cv._condition p + 1 := by
  simp [ConditionVariable.lock, TRI_LockCondition, lockCalls_issue]

theorem unlockCalls_lock (cv : ConditionVariable) (p : Platform) :
    unlockCalls cv._condition (cv.lock p) = unlockCalls cv._condition p := by
  simp [ConditionVariable.lock, TRI_LockCondition, unlockCalls_issue]

theorem lockCalls_unlock (cv : ConditionVariable) (p : Platform) :
    lockCalls cv._condition (cv.unlock p) = lockCalls cv._condition p := by
  simp [ConditionVariable.unlock, TRI_UnlockCondition, lockCalls_issue]

theorem unlockCalls_unlock (cv : ConditionVariable) (p : Platform) :
    unlockCalls cv._condition (cv.unlock p) = unlockCalls cv._condition p + 1 := by
  simp [ConditionVariable.unlock, TRI_UnlockCondition, unlockCalls_issue]

theorem outstanding_lock (cv : ConditionVariable) (p : Platform) :
    outstanding cv._condition (cv.lock p) = outstanding cv._condition p + 1 := by
  simp only [outstanding, lockCalls_lock, unlockCalls_lock]
  push_cast
  ring

theorem outstanding_unlock (cv : ConditionVariable) (p : Platform) :
    outstanding cv._condition (cv.unlock p) = outstanding cv._condition p - 1 := by
  simp only [outstanding, lockCalls_unlock, unlockCalls_unlock]
  push_cast
  ring

theorem WaitOp.run_counts (l : ConditionLocker) (op : WaitOp) (cond : Nat) (p : Platform) :
    lockCalls cond (op.run l p) = lockCalls cond p ∧
    unlockCalls cond (op.run l p) = unlockCalls cond p := by
  cases op with
  | wait =>
    simp [WaitOp.run, ConditionLocker.wait, ConditionVariable.wait, TRI_WaitCondition,
      lockCalls_issue, unlockCalls_issue]
  | waitDelay d =>
    simp [WaitOp.run, ConditionLocker.waitDelay, ConditionVariable.waitDelay,
      TRI_TimedWaitCondition, lockCalls, unlockCalls, List.count_append, List.count_singleton]
  | broadcast =>
    simp [WaitOp.run, ConditionLocker.broadcast, ConditionVariable.broadcast,
      TRI_BroadcastCondition, lockCalls_issue, unlockCalls_issue]
  | signal =>
    simp [WaitOp.run, ConditionLocker.signal, ConditionVariable.signal, TRI_SignalCondition,
      lockCalls_issue, unlockCalls_issue]

theorem runWaitOps_counts (l : ConditionLocker) (ops : List WaitOp) (cond : Nat)
    (p : Platform) :
    lockCalls cond (runWaitOps l ops p) = lockCalls cond p ∧
    unlockCalls cond (runWaitOps l ops p) = unlockCalls cond p := by
  induction ops generalizing p with
  | nil => exact ⟨rfl, rfl⟩
  | cons op ops ih =>
    have h1 := ih (op.run l p)
    have h2 := WaitOp.run_counts l op cond p
    simp only [runWaitOps, List.foldl_cons] at h1 ⊢
    exact ⟨h1.1.trans h2.1, h1.2.trans h2.2⟩

theorem runWaitOps_outstanding (l : ConditionLocker) (ops : List WaitOp) (cond : Nat)
    (p : Platform) : outstanding cond (runWaitOps l ops p) = outstanding cond p := by
  have h := runWaitOps_counts l ops cond p
  simp only [outstanding, h.1, h.2]

theorem unlockLockRounds_counts (l : ConditionLocker) (n : Nat) (p : Platform) :
    lockCalls l._conditionVariable._condition (unlockLockRounds l n p) =
      lockCalls l._conditionVariable._condition p + n ∧
    unlockCalls l._conditionVariable._condition (unlockLockRounds l n p) =
      unlockCalls l._conditionVariable._condition p + n := by
  induction n generalizing p with
  | zero => exact ⟨rfl, rfl⟩
  | succ n ih =>
    have h := ih (l.lock (l.unlock p))
    simp only [unlockLockRounds]
    rw [h.1, h.2]
    simp only [ConditionLocker.lock, ConditionLocker.unlock, lockCalls_lock, unlockCalls_lock,
      lockCalls_unlock, unlockCalls_unlock]
    omega

/-! ## Scoped acquisition (C9) -/

/-- C9: constructing a locker on a condition variable issues exactly one lock
call on the condition of that variable and stores the variable; destroying the
locker issues exactly one unlock call on the same condition.  Between the two,
after any number of `wait`, timed `wait`, `broadcast` and `signal` calls (no
`unlock()`/`lock()`), the number of outstanding locks is one more than before
the construction, so the variable is held whenever the count was not negative
before; after the destruction the count is back at its value before the
construction. -/
theorem scoped_acquisition (cv : ConditionVariable) (p : Platform) (ops : List WaitOp) :
    ((ConditionLocker.construct cv p).2.calls = p.calls ++ [.TRI_LockCondition cv._condition] ∧
      (ConditionLocker.construct cv p).1._conditionVariable = cv) ∧
    (∀ q : Platform, ((ConditionLocker.construct cv p).1.destruct q).calls =
      q.calls ++ [.TRI_UnlockCondition cv._condition]) ∧
    (∀ k : Nat,
      outstanding cv._condition
          (runWaitOps (ConditionLocker.construct cv p).1 (ops.take k)
            (ConditionLocker.construct cv p).2) = outstanding cv._condition p + 1 ∧
      (0 ≤ outstanding cv._condition p →
        isHeld cv._condition
          (runWaitOps (ConditionLocker.construct cv p).1 (ops.take k)
            (ConditionLocker.construct cv p).2))) ∧
    outstanding cv._condition
        ((ConditionLocker.construct cv p).1.destruct
          (runWaitOps (ConditionLocker.construct cv p).1 ops
            (ConditionLocker.construct cv p).2)) = outstanding cv._condition p := by
  have hmid : ∀ os : List WaitOp,
      outstanding cv._condition
          (runWaitOps (ConditionLocker.construct cv p).1 os
            (ConditionLocker.construct cv p).2) = outstanding cv._condition p + 1 := by
    intro os
    rw [runWaitOps_outstanding]
    exact outstanding_lock cv p
  refine ⟨⟨rfl, rfl⟩, fun q => rfl, fun k => ⟨hmid _, fun h0 => ?_⟩, ?_⟩
  · unfold isHeld
    rw [hmid]
    omega
  · have hd := outstanding_unlock cv
      (runWaitOps (ConditionLocker.construct cv p).1 ops (ConditionLocker.construct cv p).2)
    simp only [ConditionLocker.destruct, ConditionLocker.construct] at hd ⊢
    rw [hd]
    have := hmid ops
    simp only [ConditionLocker.construct] at this
    rw [this]
    ring

/-- C9 witness: a locker on the condition at address 7, constructed on a platform
without calls, then `wait`, `signal`, and destroyed: the log is lock, wait,
signal, unlock, the condition is held after the signal and no lock is
outstanding after the destruction. -/
theorem scoped_acquisition_witness :
    (0 : Int) ≤ outstanding 7 ⟨[], []⟩ ∧
    isHeld 7 (runWaitOps (ConditionLocker.construct ⟨7⟩ ⟨[], []⟩).1 [.wait, .signal]
      (ConditionLocker.construct ⟨7⟩ ⟨[], []⟩).2) ∧
    outstanding 7 ((ConditionLocker.construct ⟨7⟩ ⟨[], []⟩).1.destruct
      (runWaitOps (ConditionLocker.construct ⟨7⟩ ⟨[], []⟩).1 [.wait, .signal]
        (ConditionLocker.construct ⟨7⟩ ⟨[], []⟩).2)) = 0 ∧
    ((ConditionLocker.construct ⟨7⟩ ⟨[], []⟩).1.destruct
      (runWaitOps (ConditionLocker.construct ⟨7⟩ ⟨[], []⟩).1 [.wait, .signal]
        (ConditionLocker.construct ⟨7⟩ ⟨[], []⟩).2)).calls =
      [.TRI_LockCondition 7, .TRI_WaitCondition 7, .TRI_SignalCondition 7,
        .TRI_UnlockCondition 7] := by
  have h := scoped_acquisition ⟨7⟩ ⟨[], []⟩ [.wait, .signal]
  refine ⟨by decide, (h.2.2.1 2).2 (by decide), h.2.2.2.trans (by decide), by decide⟩

/-! ## Temporary release and reacquire (C10) -/

/-- C10: on a locker, `unlock()` issues one unlock call and lowers the number of
outstanding locks by one, and a following `lock()` issues one lock call and
restores it.  After construction and any number of rounds of `unlock()` then
`lock()` the number of outstanding locks is one more than before the
construction (the variable is held again when the count was not negative
before), and after destroying the locker the construction, the rounds and the
destruction together have issued as many lock calls as unlock calls on the
condition, so the totals agree whenever they agreed before. -/
theorem unlock_lock_rounds (cv : ConditionVariable) (p : Platform) (n : Nat) :
    (∀ q : Platform,
      ((ConditionLocker.construct cv p).1.unlock q).calls =
          q.calls ++ [.TRI_UnlockCondition cv._condition] ∧
      ((ConditionLocker.construct cv p).1.lock q).calls =
          q.calls ++ [.TRI_LockCondition cv._condition] ∧
      outstanding cv._condition ((ConditionLocker.construct cv p).1.unlock q) =
          outstanding cv._condition q - 1 ∧
      outstanding cv._condition
          ((ConditionLocker.construct cv p).1.lock ((ConditionLocker.construct cv p).1.unlock q)) =
        outstanding cv._condition q) ∧
    (outstanding cv._condition
        (unlockLockRounds (ConditionLocker.construct cv p).1 n
          (ConditionLocker.construct cv p).2) = outstanding cv._condition p + 1 ∧
      (0 ≤ outstanding cv._condition p →
        isHeld cv._condition
          (unlockLockRounds (ConditionLocker.construct cv p).1 n
            (ConditionLocker.construct cv p).2))) ∧
    (lockCalls cv._condition
        ((ConditionLocker.construct cv p).1.destruct
          (unlockLockRounds (ConditionLocker.construct cv p).1 n
            (ConditionLocker.construct cv p).2)) = lockCalls cv._condition p + (n + 1) ∧
      unlockCalls cv._condition
        ((ConditionLocker.construct cv p).1.destruct
          (unlockLockRounds (ConditionLocker.construct cv p).1 n
            (ConditionLocker.construct cv p).2)) = unlockCalls cv._condition p + (n + 1) ∧
      (lockCalls cv._condition p = unlockCalls cv._condition p →
        lockCalls cv._condition
          ((ConditionLocker.construct cv p).1.destruct
            (unlockLockRounds (ConditionLocker.construct cv p).1 n
              (ConditionLocker.construct cv p).2)) =
        unlockCalls cv._condition
          ((ConditionLocker.construct cv p).1.destruct
            (unlockLockRounds (ConditionLocker.construct cv p).1 n
              (ConditionLocker.construct cv p).2)))) := by
  have hr := unlockLockRounds_counts (ConditionLocker.construct cv p).1 n
    (ConditionLocker.construct cv p).2
  simp only [ConditionLocker.construct] at hr
  rw [lockCalls_lock, unlockCalls_lock] at hr
  have hout : outstanding cv._condition
      (unlockLockRounds (ConditionLocker.construct cv p).1 n
        (ConditionLocker.construct cv p).2) = outstanding cv._condition p + 1 := by
    simp only [outstanding, ConditionLocker.construct, hr.1, hr.2]
    push_cast
    ring
  have hl : lockCalls cv._condition
      ((ConditionLocker.construct cv p).1.destruct
        (unlockLockRounds (ConditionLocker.construct cv p).1 n
          (ConditionLocker.construct cv p).2)) = lockCalls cv._condition p + (n + 1) := by
    simp only [ConditionLocker.destruct, ConditionLocker.construct, lockCalls_unlock, hr.1]
    omega
  have hu : unlockCalls cv._condition
      ((ConditionLocker.construct cv p).1.destruct
        (unlockLockRounds (ConditionLocker.construct cv p).1 n
          (ConditionLocker.construct cv p).2)) = unlockCalls cv._condition p + (n + 1) := by
    simp only [ConditionLocker.destruct, ConditionLocker.construct, unlockCalls_unlock, hr.2]
    omega
  refine ⟨fun q => ⟨rfl, rfl, outstanding_unlock cv q, ?_⟩, ⟨hout, fun h0 => ?_⟩, hl, hu, ?_⟩
  · simp only [ConditionLocker.lock, ConditionLocker.unlock, ConditionLocker.construct,
      outstanding_lock, outstanding_unlock]
    ring
  · unfold isHeld
    rw [hout]
    omega
  · intro heq
    rw [hl, hu, heq]

/-- C10 witness: a locker on the condition at address 7, constructed on a
platform without calls, two rounds of `unlock()` and `lock()`, then destroyed:
the condition is held after the rounds and the log ends with three lock calls
and three unlock calls. -/
theorem unlock_lock_rounds_witness :
    (0 : Int) ≤ outstanding 7 ⟨[], []⟩ ∧
    isHeld 7 (unlockLockRounds (ConditionLocker.construct ⟨7⟩ ⟨[], []⟩).1 2
      (ConditionLocker.construct ⟨7⟩ ⟨[], []⟩).2) ∧
    lockCalls 7 ((ConditionLocker.construct ⟨7⟩ ⟨[], []⟩).1.destruct
      (unlockLockRounds (ConditionLocker.construct ⟨7⟩ ⟨[], []⟩).1 2
        (ConditionLocker.construct ⟨7⟩ ⟨[], []⟩).2)) = 3 ∧
    unlockCalls 7 ((ConditionLocker.construct ⟨7⟩ ⟨[], []⟩).1.destruct
      (unlockLockRounds (ConditionLocker.construct ⟨7⟩ ⟨[], []⟩).1 2
        (ConditionLocker.construct ⟨7⟩ ⟨[], []⟩).2)) = 3 := by
  have h := unlock_lock_rounds ⟨7⟩ ⟨[], []⟩ 2
  exact ⟨by decide, h.2.1.2 (by decide), h.2.2.1.trans (by decide), h.2.2.2.1.trans (by decide)⟩

end basics
end triagens

namespace triagens
namespace mvcc

/-! ## Type identity of the edge index (C14, C15) -/

/-- C14: in every state of every edge index `typeName()` returns exactly the
string `edge` and hands the index back as it is; two indexes that differ in
identifier or in the contents of their maps get the same name. -/
theorem typeName_is_edge (idx : EdgeIndex) :
    idx.typeName.1 = "edge" ∧ idx.typeName.2 = idx ∧
    (∀ idx2 : EdgeIndex, idx2.typeName.1 = idx.typeName.1) ∧
    (∀ (id : Nat) (m1 m2 : HashMultimap), (EdgeIndex.mk id m1 m2).typeName.1 = "edge") :=
  ⟨rfl, rfl, fun _ => rfl, fun _ _ _ => rfl⟩

/-- C15: in every state of every edge index `type()` returns the constant
`TRI_IDX_TYPE_EDGE_INDEX`, which is none of the other members of the
enumeration, and hands the index back with every field (identifier, from map,
to map) as it was. -/
theorem type_is_edge_index (idx : EdgeIndex) :
    idx.type.1 = .TRI_IDX_TYPE_EDGE_INDEX ∧
    (idx.type.2 = idx ∧ idx.type.2.id = idx.id ∧ idx.type.2._from = idx._from ∧
      idx.type.2._to = idx._to) ∧
    (idx.type.1 ≠ .TRI_IDX_TYPE_UNKNOWN ∧ idx.type.1 ≠ .TRI_IDX_TYPE_PRIMARY_INDEX ∧
      idx.type.1 ≠ .TRI_IDX_TYPE_HASH_INDEX ∧ idx.type.1 ≠ .TRI_IDX_TYPE_SKIPLIST_INDEX) := by
  refine ⟨rfl, ⟨rfl, rfl, rfl, rfl⟩, ?_, ?_, ?_, ?_⟩ <;> simp [EdgeIndex.type]

end mvcc
end triagens

namespace triagens
namespace basics

/-! ## Calls issued by one operation -/

theorem newCalls_of_append (p q : Platform) (cs : List PrimitiveCall)
    (h : q.calls = p.calls ++ cs) : newCalls p q = cs := by
  simp [newCalls, h]

theorem newCalls_issue (p : Platform) (c : PrimitiveCall) : newCalls p (p.issue c) = [c] :=
  newCalls_of_append p _ [c] rfl

theorem LockerOp.run_eq_onVariable (l : ConditionLocker) (op : LockerOp) (p : Platform) :
    op.run l p = op.onVariable l._conditionVariable p := by
  cases op <;> rfl

theorem LockerOp.run_calls (l : ConditionLocker) (op : LockerOp) (p : Platform) :
    (op.run l p).2.calls = p.calls ++ [op.primitive l._conditionVariable._condition] := by
  cases op <;> rfl

theorem runLockerOps_calls (l : ConditionLocker) (ops : List LockerOp) (p : Platform) :
    (runLockerOps l ops p).2.calls =
      p.calls ++ ops.map (LockerOp.primitive l._conditionVariable._condition) := by
  induction ops generalizing p with
  | nil => simp [runLockerOps]
  | cons op ops ih =>
    simp only [runLockerOps, ih, LockerOp.run_calls, List.map_cons, List.append_assoc,
      List.singleton_append]

theorem LockerOp.run_congr (l1 l2 : ConditionLocker)
    (h : l1._conditionVariable = l2._conditionVariable) (op : LockerOp) (p : Platform) :
    op.run l1 p = op.run l2 p := by
  rw [LockerOp.run_eq_onVariable, LockerOp.run_eq_onVariable, h]

theorem runLockerOps_congr (l1 l2 : ConditionLocker)
    (h : l1._conditionVariable = l2._conditionVariable) (ops : List LockerOp) (p : Platform) :
    runLockerOps l1 ops p = runLockerOps l2 ops p := by
  induction ops generalizing p with
  | nil => rfl
  | cons op ops ih =>
    simp only [runLockerOps, LockerOp.run_congr l1 l2 h, ih]

/-! ## Timed wait result (C11) -/

/-- C11: for every delay `wait(delay)` of the locker returns exactly what
`wait(delay)` of its condition variable returns, which is exactly what the timed
wait primitive returns when called on the condition of that variable with the
same delay; the only call issued is that one timed wait, and whichever answer
the primitive gives (woken by a signal or timeout expired) is the answer
returned. -/
theorem timed_wait_result (l : ConditionLocker) (cv : ConditionVariable) (delay : Nat)
    (p : Platform) :
    (l.waitDelay delay p = l._conditionVariable.waitDelay delay p ∧
      cv.waitDelay delay p = TRI_TimedWaitCondition cv._condition delay p) ∧
    ((l.waitDelay delay p).1 =
        (TRI_TimedWaitCondition l._conditionVariable._condition delay p).1 ∧
      newCalls p (l.waitDelay delay p).2 =
        [.TRI_TimedWaitCondition l._conditionVariable._condition delay] ∧
      newCalls p (cv.waitDelay delay p).2 = [.TRI_TimedWaitCondition cv._condition delay]) ∧
    (∀ (answer : Bool) (rest : List Bool),
      (l.waitDelay delay ⟨p.calls, answer :: rest⟩).1 = answer ∧
      (cv.waitDelay delay ⟨p.calls, answer :: rest⟩).1 = answer ∧
      (TRI_TimedWaitCondition cv._condition delay ⟨p.calls, answer :: rest⟩).1 = answer) :=
  ⟨⟨rfl, rfl⟩, ⟨rfl, newCalls_of_append _ _ _ rfl, newCalls_of_append _ _ _ rfl⟩,
    fun _ _ => ⟨rfl, rfl, rfl⟩⟩

/-! ## Signal and broadcast (C12) -/

theorem waitSetAfter_singleton (pick : List Nat → Nat) (cond : Nat) (c : PrimitiveCall)
    (waiting : List Nat) : waitSetAfter pick cond [c] waiting = c.wake pick cond waiting := rfl

theorem wakeOne_leaves_at_most_one (pick : List Nat → Nat) (waiting : List Nat) :
    waiting.length ≤ (wakeOne pick waiting).length + 1 ∧
    List.Sublist (wakeOne pick waiting) waiting := by
  refine ⟨?_, List.eraseIdx_sublist _ _⟩
  unfold wakeOne
  rw [List.length_eraseIdx]
  split <;> omega

/-- C12: `signal()` of the locker and of the condition variable issue exactly
one call, the signal primitive (wake-one) on the condition of the variable, and
`broadcast()` of both issue exactly one call, the broadcast primitive
(wake-all); the two are not swapped.  On the wait set of that condition the
signal therefore acts as wake-one, after which at most one thread has left the
set and none has joined it, and the broadcast acts as wake-all, after which the
set is empty; whichever waiter the wake-one primitive picks. -/
theorem signal_wakes_one_broadcast_all (l : ConditionLocker) (cv : ConditionVariable)
    (p : Platform) (pick : List Nat → Nat) (waiting : List Nat) :
    ((newCalls p (l.signal p) = [.TRI_SignalCondition l._conditionVariable._condition] ∧
        newCalls p (cv.signal p) = [.TRI_SignalCondition cv._condition]) ∧
      (newCalls p (l.broadcast p) =
          [.TRI_BroadcastCondition l._conditionVariable._condition] ∧
        newCalls p (cv.broadcast p) = [.TRI_BroadcastCondition cv._condition])) ∧
    ((waitSetAfter pick l._conditionVariable._condition (newCalls p (l.signal p)) waiting =
          wakeOne pick waiting ∧
        waitSetAfter pick cv._condition (newCalls p (cv.signal p)) waiting =
          wakeOne pick waiting) ∧
      (waiting.length ≤
          (waitSetAfter pick l._conditionVariable._condition (newCalls p (l.signal p))
            waiting).length + 1 ∧
        List.Sublist
          (waitSetAfter pick l._conditionVariable._condition (newCalls p (l.signal p)) waiting)
          waiting)) ∧
    (waitSetAfter pick l._conditionVariable._condition (newCalls p (l.broadcast p)) waiting =
        [] ∧
      waitSetAfter pick cv._condition (newCalls p (cv.broadcast p)) waiting = []) := by
  have hls : newCalls p (l.signal p) =
      [.TRI_SignalCondition l._conditionVariable._condition] := newCalls_issue p _
  have hcs : newCalls p (cv.signal p) = [.TRI_SignalCondition cv._condition] :=
    newCalls_issue p _
  have hlb : newCalls p (l.broadcast p) =
      [.TRI_BroadcastCondition l._conditionVariable._condition] := newCalls_issue p _
  have hcb : newCalls p (cv.broadcast p) = [.TRI_BroadcastCondition cv._condition] :=
    newCalls_issue p _
  have h1 : waitSetAfter pick l._conditionVariable._condition (newCalls p (l.signal p))
      waiting = wakeOne pick waiting := by
    rw [hls, waitSetAfter_singleton]; simp [PrimitiveCall.wake]
  have h2 : waitSetAfter pick cv._condition (newCalls p (cv.signal p)) waiting =
      wakeOne pick waiting := by
    rw [hcs, waitSetAfter_singleton]; simp [PrimitiveCall.wake]
  refine ⟨⟨⟨hls, hcs⟩, hlb, hcb⟩, ⟨⟨h1, h2⟩, ?_⟩, ?_, ?_⟩
  · rw [h1]; exact wakeOne_leaves_at_most_one pick waiting
  · rw [hlb, waitSetAfter_singleton]; simp [PrimitiveCall.wake, wakeAll]
  · rw [hcb, waitSetAfter_singleton]; simp [PrimitiveCall.wake, wakeAll]

/-! ## The destructor unlocks unconditionally (C16) -/

theorem lockCalls_of_calls (cond : Nat) (p q : Platform) (cs : List PrimitiveCall)
    (h : q.calls = p.calls ++ cs) :
    lockCalls cond q = lockCalls cond p + cs.count (.TRI_LockCondition cond) := by
  simp [lockCalls, h, List.count_append]

theorem unlockCalls_of_calls (cond : Nat) (p q : Platform) (cs : List PrimitiveCall)
    (h : q.calls = p.calls ++ cs) :
    unlockCalls cond q = unlockCalls cond p + cs.count (.TRI_UnlockCondition cond) := by
  simp [unlockCalls, h, List.count_append]

/-- C16: whatever calls were made on a locker since its construction, and in
whatever platform state, destroying it issues exactly one more unlock call on
its condition and no lock call: the locker has no field that records whether it
holds the lock.  So construction, `unlock()`, destruction issue the calls lock,
unlock, unlock: two unlock calls against one lock call, one outstanding lock
less than before the construction. -/
theorem destructor_unlocks_unconditionally (cv : ConditionVariable) (p : Platform)
    (ops : List LockerOp) :
    (∀ q : Platform,
      newCalls q ((ConditionLocker.construct cv p).1.destruct q) =
        [.TRI_UnlockCondition cv._condition]) ∧
    (newCalls (runLockerOps (ConditionLocker.construct cv p).1 ops
          (ConditionLocker.construct cv p).2).2
        ((ConditionLocker.construct cv p).1.destruct
          (runLockerOps (ConditionLocker.construct cv p).1 ops
            (ConditionLocker.construct cv p).2).2) = [.TRI_UnlockCondition cv._condition] ∧
      newCalls p
        ((ConditionLocker.construct cv p).1.destruct
          (runLockerOps (ConditionLocker.construct cv p).1 ops
            (ConditionLocker.construct cv p).2).2) =
        .TRI_LockCondition cv._condition ::
          (ops.map (LockerOp.primitive cv._condition) ++
            [.TRI_UnlockCondition cv._condition])) ∧
    (newCalls p
        ((ConditionLocker.construct cv p).1.destruct
          ((ConditionLocker.construct cv p).1.unlock (ConditionLocker.construct cv p).2)) =
        [.TRI_LockCondition cv._condition, .TRI_UnlockCondition cv._condition,
          .TRI_UnlockCondition cv._condition] ∧
      lockCalls cv._condition
        ((ConditionLocker.construct cv p).1.destruct
          ((ConditionLocker.construct cv p).1.unlock (ConditionLocker.construct cv p).2)) =
        lockCalls cv._condition p + 1 ∧
      unlockCalls cv._condition
        ((ConditionLocker.construct cv p).1.destruct
          ((ConditionLocker.construct cv p).1.unlock (ConditionLocker.construct cv p).2)) =
        unlockCalls cv._condition p + 2 ∧
      outstanding cv._condition
        ((ConditionLocker.construct cv p).1.destruct
          ((ConditionLocker.construct cv p).1.unlock (ConditionLocker.construct cv p).2)) =
        outstanding cv._condition p - 1) := by
  have hseq : ((ConditionLocker.construct cv p).1.destruct
      ((ConditionLocker.construct cv p).1.unlock (ConditionLocker.construct cv p).2)).calls =
      p.calls ++ [.TRI_LockCondition cv._condition, .TRI_UnlockCondition cv._condition,
        .TRI_UnlockCondition cv._condition] := by
    simp [ConditionLocker.destruct, ConditionLocker.unlock, ConditionLocker.construct,
      ConditionVariable.lock, ConditionVariable.unlock, TRI_LockCondition,
      TRI_UnlockCondition, Platform.issue]
  have hl := lockCalls_of_calls cv._condition p _ _ hseq
  have hu := unlockCalls_of_calls cv._condition p _ _ hseq
  have hl2 : lockCalls cv._condition
      ((ConditionLocker.construct cv p).1.destruct
        ((ConditionLocker.construct cv p).1.unlock (ConditionLocker.construct cv p).2)) =
      lockCalls cv._condition p + 1 := by
    rw [hl]; simp
  have hu2 : unlockCalls cv._condition
      ((ConditionLocker.construct cv p).1.destruct
        ((ConditionLocker.construct cv p).1.unlock (ConditionLocker.construct cv p).2)) =
      unlockCalls cv._condition p + 2 := by
    rw [hu]; simp
  refine ⟨fun q => newCalls_issue q _, ⟨newCalls_issue _ _, ?_⟩,
    newCalls_of_append _ _ _ hseq, hl2, hu2, ?_⟩
  · apply newCalls_of_append
    have h := runLockerOps_calls (ConditionLocker.construct cv p).1 ops
      (ConditionLocker.construct cv p).2
    simp only [ConditionLocker.destruct, ConditionVariable.unlock, TRI_UnlockCondition,
      Platform.issue, h]
    simp [ConditionLocker.construct, ConditionVariable.lock, TRI_LockCondition, Platform.issue]
  · simp only [outstanding, hl2, hu2]
    push_cast
    ring

/-! ## The locker is a proxy of its condition variable (C17) -/

/-- C17: each of `wait()`, `wait(delay)`, `broadcast()`, `signal()`, `unlock()` and
`lock()` of a locker is the same-named operation of the stored condition
variable (same result, same platform state), and issues exactly one call, the
matching primitive on the condition of that variable.  Every call of a sequence
of locker operations lands on the condition of the variable given at
construction, wherever in the sequence it stands. -/
theorem locker_is_transparent_proxy (l : ConditionLocker) (cv : ConditionVariable)
    (op : LockerOp) (ops : List LockerOp) (p : Platform) :
    (op.run l p = op.onVariable l._conditionVariable p ∧
      newCalls p (op.run l p).2 = [op.primitive l._conditionVariable._condition]) ∧
    ((l.wait p = l._conditionVariable.wait p ∧
        ∀ delay, l.waitDelay delay p = l._conditionVariable.waitDelay delay p) ∧
      (l.broadcast p = l._conditionVariable.broadcast p ∧
        l.signal p = l._conditionVariable.signal p) ∧
      (l.unlock p = l._conditionVariable.unlock p ∧
        l.lock p = l._conditionVariable.lock p)) ∧
    ((ConditionLocker.construct cv p).1._conditionVariable = cv ∧
      newCalls (ConditionLocker.construct cv p).2
          (runLockerOps (ConditionLocker.construct cv p).1 ops
            (ConditionLocker.construct cv p).2).2 =
        ops.map (LockerOp.primitive cv._condition)) := by
  refine ⟨⟨LockerOp.run_eq_onVariable l op p,
      newCalls_of_append _ _ _ (LockerOp.run_calls l op p)⟩,
    ⟨⟨rfl, fun _ => rfl⟩, ⟨rfl, rfl⟩, rfl, rfl⟩, rfl, ?_⟩
  exact newCalls_of_append _ _ _ (runLockerOps_calls _ ops _)

/-! ## Condition variable operations and their primitives (C18) -/

/-- C18: each operation of a condition variable is the matching primitive on the
condition of that variable and issues exactly that one call: `lock()` the lock
primitive, `unlock()` the unlock primitive, `wait()` the unbounded wait,
`wait(delay)` the timed wait with the same delay, `broadcast()` the broadcast
and `signal()` the signal primitive.  In particular `lock()` adds no unlock call
and `unlock()` adds no lock call, on any condition. -/
theorem variable_ops_reach_matching_primitive (cv : ConditionVariable) (p : Platform)
    (delay : Nat) :
    ((cv.lock p = TRI_LockCondition cv._condition p ∧
        newCalls p (cv.lock p) = [.TRI_LockCondition cv._condition]) ∧
      (cv.unlock p = TRI_UnlockCondition cv._condition p ∧
        newCalls p (cv.unlock p) = [.TRI_UnlockCondition cv._condition]) ∧
      (cv.wait p = TRI_WaitCondition cv._condition p ∧
        newCalls p (cv.wait p) = [.TRI_WaitCondition cv._condition])) ∧
    ((cv.waitDelay delay p = TRI_TimedWaitCondition cv._condition delay p ∧
        newCalls p (cv.waitDelay delay p).2 = [.TRI_TimedWaitCondition cv._condition delay]) ∧
      (cv.broadcast p = TRI_BroadcastCondition cv._condition p ∧
        newCalls p (cv.broadcast p) = [.TRI_BroadcastCondition cv._condition]) ∧
      (cv.signal p = TRI_SignalCondition cv._condition p ∧
        newCalls p (cv.signal p) = [.TRI_SignalCondition cv._condition])) ∧
    ((∀ cond, unlockCalls cond (cv.lock p) = unlockCalls cond p) ∧
      (∀ cond, lockCalls cond (cv.unlock p) = lockCalls cond p)) := by
  refine ⟨⟨⟨rfl, newCalls_issue p _⟩, ⟨rfl, newCalls_issue p _⟩, rfl, newCalls_issue p _⟩,
    ⟨⟨rfl, newCalls_of_append _ _ _ rfl⟩, ⟨rfl, newCalls_issue p _⟩, rfl, newCalls_issue p _⟩,
    fun cond => ?_, fun cond => ?_⟩
  · simp [ConditionVariable.lock, TRI_LockCondition, unlockCalls_issue]
  · simp [ConditionVariable.unlock, TRI_UnlockCondition, lockCalls_issue]

/-! ## The two constructors (C19) -/

/-- C19: for every condition variable and every file and line, the constructor
with file and line leaves the platform in the state the plain constructor
leaves it in, having issued exactly one lock call on the condition of the
variable.  The lockers the two constructors build behave alike afterwards: every
sequence of `wait`, timed `wait`, `broadcast`, `signal`, `unlock` and `lock`
calls gives the same results and the same platform state, from any state, and
so does the destruction. -/
theorem constructors_agree (cv : ConditionVariable) (file : String) (line : Int)
    (p : Platform) (ops : List LockerOp) :
    ((ConditionLocker.constructAt cv file line p).2 = (ConditionLocker.construct cv p).2 ∧
      newCalls p (ConditionLocker.constructAt cv file line p).2 =
        [.TRI_LockCondition cv._condition] ∧
      newCalls p (ConditionLocker.construct cv p).2 = [.TRI_LockCondition cv._condition]) ∧
    (∀ q : Platform,
      runLockerOps (ConditionLocker.constructAt cv file line p).1 ops q =
        runLockerOps (ConditionLocker.construct cv p).1 ops q ∧
      (ConditionLocker.constructAt cv file line p).1.destruct q =
        (ConditionLocker.construct cv p).1.destruct q) ∧
    (∀ (file2 : Option String) (line2 : Int) (q : Platform),
      runLockerOps ⟨cv, file2, line2⟩ ops q =
        runLockerOps (ConditionLocker.construct cv p).1 ops q ∧
      ConditionLocker.destruct ⟨cv, file2, line2⟩ q =
        (ConditionLocker.construct cv p).1.destruct q) :=
  ⟨⟨rfl, newCalls_issue p _, newCalls_issue p _⟩,
    fun q => ⟨runLockerOps_congr (ConditionLocker.constructAt cv file line p).1
      (ConditionLocker.construct cv p).1 rfl ops q, rfl⟩,
    fun file2 line2 q => ⟨runLockerOps_congr ⟨cv, file2, line2⟩
      (ConditionLocker.construct cv p).1 rfl ops q, rfl⟩⟩

end basics
end triagens
